import Mathlib

/-!
Verification of the dbbridge query-translation and execution core.

This file gives a shallow embedding, in Lean, of the parts of the Go
source that the specification's claims talk about:

* `internal/core/param_parser.go` — the named-parameter grammar
  (`SQLParser.Parse`, `SQLParser.MapValues`);
* the query executor (`QueryExecutor.Execute`, `ExecuteByName`,
  `ExecuteSQL`, `processSystemVariables`) including its deferred audit
  emission;
* `internal/service/crypto.go` — the AES-256-GCM secret cipher
  (`EncryptionService.Encrypt` / `Decrypt`), embedded down to the block
  cipher together with standard base64;
* `internal/api/handler.go` — the public execution endpoint's body
  decoding.

Go strings are modelled as `List Char`, Go byte slices as `List Nat`
(with side conditions `< 256` where they matter), `map[string]interface{}`
values as the inductive `GoValue` (JSON numbers are carried as exact
rationals; float64 rounding of extreme decimal literals is not modelled),
and Go maps as association lists with overwrite-on-insert. Effectful
calls (repositories, database driver, clock, random nonce) are passed in
explicitly as data.
-/

set_option maxRecDepth 4000

namespace DbBridge

/-- Dynamic values stored in a Go `map[string]interface{}` after JSON
decoding: null, booleans, numbers, strings, arrays and objects. -/
inductive GoValue where
  | null : GoValue
  | bool (b : Bool) : GoValue
  | num (q : Rat) : GoValue
  | str (s : List Char) : GoValue
  | arr (xs : List GoValue) : GoValue
  | obj (fields : List (List Char × GoValue)) : GoValue

/-- A Go `map[string]interface{}`, modelled as an association list whose
insert overwrites and whose lookup finds the unique binding. -/
abbrev ValuesMap := List (List Char × GoValue)

/-- Lookup in a Go map (`values[name]` with the `ok` flag). -/
def lookupAssoc : ValuesMap → List Char → Option GoValue
  | [], _ => none
  | (k, v) :: rest, key => if k = key then some v else lookupAssoc rest key

/-- Insert into a Go map (`m[k] = v`), overwriting an existing binding. -/
def insertAssoc : ValuesMap → List Char → GoValue → ValuesMap
  | [], key, v => [(key, v)]
  | (k, w) :: rest, key, v =>
      if k = key then (key, v) :: rest else (k, w) :: insertAssoc rest key v

/-- Whitespace as recognised by Go's `unicode.IsSpace` on the ASCII
range, used by `strings.TrimSpace`. -/
def isGoSpace (c : Char) : Bool :=
  c = ' ' || c = '\t' || c = '\n' || c = '\x0b' || c = '\x0c' || c = '\r'

/-- Go's `strings.TrimSpace`. -/
def trimChars (s : List Char) : List Char :=
  ((s.dropWhile isGoSpace).reverse.dropWhile isGoSpace).reverse

/-- Go's `strings.SplitN(s, ":", 2)`: the text before the first colon,
and — when a colon is present — the remainder after it. -/
def splitColon : List Char → List Char × Option (List Char)
  | [] => ([], none)
  | c :: cs =>
      if c = ':' then ([], some cs)
      else
        let r := splitColon cs
        (c :: r.1, r.2)

/-- Decimal digit test. -/
def isDigitCh (c : Char) : Bool := '0' ≤ c && c ≤ '9'

/-- Numeric value of a decimal digit character. -/
def digitVal (c : Char) : Nat := c.toNat - '0'.toNat

/-- Value of a string of decimal digits. -/
def digitsToNat (ds : List Char) : Nat :=
  ds.foldl (fun a c => a * 10 + digitVal c) 0

/-- Go's `strconv.Atoi`: optional sign followed by at least one decimal
digit (integer overflow, which Atoi reports as an error, is not
modelled; the executor only ever parses short digit strings). -/
def atoiInt : List Char → Option Int
  | [] => none
  | c :: ds =>
      if c = '+' then
        if ds ≠ [] && ds.all isDigitCh then some (digitsToNat ds : Int) else none
      else if c = '-' then
        if ds ≠ [] && ds.all isDigitCh then some (-(digitsToNat ds : Int)) else none
      else if (c :: ds).all isDigitCh then some (digitsToNat (c :: ds) : Int) else none

/-- Character for a single decimal digit. -/
def digitChar (n : Nat) : Char := Char.ofNat ('0'.toNat + n)

/-- Decimal digits of `n`, most significant first; the fuel argument
bounds the number of divisions and is always passed large enough. -/
def natDigitsAux : Nat → Nat → List Char
  | 0, _ => []
  | fuel + 1, n =>
      if n < 10 then [digitChar n]
      else natDigitsAux fuel (n / 10) ++ [digitChar (n % 10)]

/-- Decimal rendering of a natural number (Go's `fmt.Sprintf` with a
`%d` verb, for nonnegative arguments). -/
def natToDigits (n : Nat) : List Char := natDigitsAux (n + 1) n

/-- Decimal rendering of an integer (`%d`). -/
def intToDigits (i : Int) : List Char :=
  if i < 0 then '-' :: natToDigits (-i).toNat else natToDigits i.toNat

/- ### JSON decoding (`encoding/json`)

The parser below embeds the part of Go's `encoding/json` that the
repository exercises: decoding a JSON value into `interface{}` /
`map[string]interface{}` / `[]interface{}`. Numbers are kept as exact
rationals; `\uXXXX` escapes decode to the corresponding code point
(surrogate-pair recombination is not modelled — no claim depends on
it). -/

/-- JSON insignificant whitespace. -/
def isJsonWs (c : Char) : Bool :=
  c = ' ' || c = '\t' || c = '\n' || c = '\r'

/-- Skip insignificant JSON whitespace. -/
def jSkipWs (s : List Char) : List Char := s.dropWhile isJsonWs

/-- Value of a hexadecimal digit, if any. -/
def hexVal (c : Char) : Option Nat :=
  let n := c.toNat
  if 48 ≤ n ∧ n ≤ 57 then some (n - 48)
  else if 97 ≤ n ∧ n ≤ 102 then some (n - 87)
  else if 65 ≤ n ∧ n ≤ 70 then some (n - 55)
  else none

/-- Single-character JSON string escapes. -/
def jEsc (c : Char) : Option Char :=
  if c = '"' then some '"'
  else if c = '\\' then some '\\'
  else if c = '/' then some '/'
  else if c = 'b' then some '\x08'
  else if c = 'f' then some '\x0c'
  else if c = 'n' then some '\n'
  else if c = 'r' then some '\r'
  else if c = 't' then some '\t'
  else none

/-- Parse the body of a JSON string literal (after the opening quote);
returns the decoded characters and the input after the closing quote. -/
def jStr : List Char → Option (List Char × List Char)
  | [] => none
  | '"' :: rest => some ([], rest)
  | '\\' :: e :: rest =>
      match jEsc e with
      | some c => (jStr rest).map (fun r => (c :: r.1, r.2))
      | none =>
          if e = 'u' then
            match rest with
            | h1 :: h2 :: h3 :: h4 :: rest' =>
                match hexVal h1, hexVal h2, hexVal h3, hexVal h4 with
                | some a, some b, some c, some d =>
                    (jStr rest').map
                      (fun r => (Char.ofNat (((a * 16 + b) * 16 + c) * 16 + d) :: r.1, r.2))
                | _, _, _, _ => none
            | _ => none
          else none
  | c :: rest => (jStr rest).map (fun r => (c :: r.1, r.2))

/-- Parse the digits of a JSON number after an optional sign: integer
part, optional fraction, optional exponent; returns the value and the
remaining input. -/
def jNumBody (s : List Char) : Option (Rat × List Char) :=
  let ip := s.takeWhile isDigitCh
  let s1 := s.dropWhile isDigitCh
  if ip = [] then none
  else if ip.length > 1 && ip.headD '0' = '0' then none
  else
    let fr :=
      match s1 with
      | '.' :: t =>
          let fp := t.takeWhile isDigitCh
          if fp = [] then none else some (fp, t.dropWhile isDigitCh)
      | _ => some ([], s1)
    match fr with
    | none => none
    | some (fp, s2) =>
        let ex :=
          match s2 with
          | 'e' :: t => some t
          | 'E' :: t => some t
          | _ => none
        let base : Rat := (digitsToNat (ip ++ fp) : Rat) / ((10 : Rat) ^ fp.length)
        match ex with
        | none => some (base, s2)
        | some t =>
            let (esign, t1) :=
              match t with
              | '+' :: u => ((1 : Int), u)
              | '-' :: u => ((-1 : Int), u)
              | u => ((1 : Int), u)
            let ed := t1.takeWhile isDigitCh
            if ed = [] then none
            else
              let e := digitsToNat ed
              let q := if esign = 1 then base * (10 : Rat) ^ e else base / ((10 : Rat) ^ e)
              some (q, t1.dropWhile isDigitCh)

/-- Parse a JSON number (with optional leading minus). -/
def jNum (s : List Char) : Option (GoValue × List Char) :=
  match s with
  | '-' :: t => (jNumBody t).map (fun r => (GoValue.num (-r.1), r.2))
  | t => (jNumBody t).map (fun r => (GoValue.num r.1, r.2))

mutual

/-- Parse one JSON value; `fuel` bounds recursion depth and is always
called with more fuel than the input length needs. -/
def jVal : Nat → List Char → Option (GoValue × List Char)
  | 0, _ => none
  | fuel + 1, s =>
      match jSkipWs s with
      | 'n' :: 'u' :: 'l' :: 'l' :: rest => some (GoValue.null, rest)
      | 't' :: 'r' :: 'u' :: 'e' :: rest => some (GoValue.bool true, rest)
      | 'f' :: 'a' :: 'l' :: 's' :: 'e' :: rest => some (GoValue.bool false, rest)
      | '"' :: rest => (jStr rest).map (fun r => (GoValue.str r.1, r.2))
      | '[' :: rest => (jArrItems fuel (jSkipWs rest)).map (fun r => (GoValue.arr r.1, r.2))
      | '{' :: rest => (jObjItems fuel (jSkipWs rest) []).map (fun r => (GoValue.obj r.1, r.2))
      | t => jNum t

/-- Parse array elements after the opening bracket (whitespace already
skipped), up to and including the closing bracket. -/
def jArrItems : Nat → List Char → Option (List GoValue × List Char)
  | 0, _ => none
  | fuel + 1, s =>
      match s with
      | ']' :: rest => some ([], rest)
      | _ =>
          match jVal fuel s with
          | none => none
          | some (v, rest) =>
              match jSkipWs rest with
              | ',' :: rest' =>
                  (jArrItems fuel (jSkipWs rest')).map (fun r => (v :: r.1, r.2))
              | ']' :: rest' => some ([v], rest')
              | _ => none

/-- Parse object members after the opening brace (whitespace already
skipped); later duplicate keys overwrite earlier ones, as in Go. -/
def jObjItems : Nat → List Char → ValuesMap → Option (ValuesMap × List Char)
  | 0, _, _ => none
  | fuel + 1, s, acc =>
      match s with
      | '}' :: rest => some (acc, rest)
      | '"' :: t =>
          match jStr t with
          | none => none
          | some (key, rest) =>
              match jSkipWs rest with
              | ':' :: rest' =>
                  match jVal fuel rest' with
                  | none => none
                  | some (v, rest'') =>
                      match jSkipWs rest'' with
                      | ',' :: u => jObjItems fuel (jSkipWs u) (insertAssoc acc key v)
                      | '}' :: u => some (insertAssoc acc key v, u)
                      | _ => none
              | _ => none
      | _ => none

end

/-- Go's `json.Unmarshal(data, &parsed)` with `parsed : []interface{}`:
the input must be one syntactically complete JSON array followed only by
whitespace. Used by `SQLParser.Parse` on string values that look like
JSON arrays. -/
def jsonDecodeArr (s : List Char) : Option (List GoValue) :=
  match jVal (2 * s.length + 2) s with
  | some (GoValue.arr xs, rest) => if jSkipWs rest = [] then some xs else none
  | _ => none

/- ### Secret cipher (`internal/service/crypto.go`)

The service wraps Go's `crypto/aes` + `cipher.NewGCM` and
`encoding/base64`; those library functions are embedded concretely
below (AES-256 block cipher, GCM with a 12-byte nonce and empty
additional data, standard base64 with padding). Byte slices are
`List Nat` with values below 256. The per-encryption random nonce is an
explicit argument. -/

/-- Go byte slices. -/
abbrev Bytes := List Nat

/-- The AES S-box. -/
def sboxT : List Nat :=
  [0x63, 0x7c, 0x77, 0x7b, 0xf2, 0x6b, 0x6f, 0xc5, 0x30, 0x01, 0x67, 0x2b, 0xfe, 0xd7, 0xab, 0x76,
   0xca, 0x82, 0xc9, 0x7d, 0xfa, 0x59, 0x47, 0xf0, 0xad, 0xd4, 0xa2, 0xaf, 0x9c, 0xa4, 0x72, 0xc0,
   0xb7, 0xfd, 0x93, 0x26, 0x36, 0x3f, 0xf7, 0xcc, 0x34, 0xa5, 0xe5, 0xf1, 0x71, 0xd8, 0x31, 0x15,
   0x04, 0xc7, 0x23, 0xc3, 0x18, 0x96, 0x05, 0x9a, 0x07, 0x12, 0x80, 0xe2, 0xeb, 0x27, 0xb2, 0x75,
   0x09, 0x83, 0x2c, 0x1a, 0x1b, 0x6e, 0x5a, 0xa0, 0x52, 0x3b, 0xd6, 0xb3, 0x29, 0xe3, 0x2f, 0x84,
   0x53, 0xd1, 0x00, 0xed, 0x20, 0xfc, 0xb1, 0x5b, 0x6a, 0xcb, 0xbe, 0x39, 0x4a, 0x4c, 0x58, 0xcf,
   0xd0, 0xef, 0xaa, 0xfb, 0x43, 0x4d, 0x33, 0x85, 0x45, 0xf9, 0x02, 0x7f, 0x50, 0x3c, 0x9f, 0xa8,
   0x51, 0xa3, 0x40, 0x8f, 0x92, 0x9d, 0x38, 0xf5, 0xbc, 0xb6, 0xda, 0x21, 0x10, 0xff, 0xf3, 0xd2,
   0xcd, 0x0c, 0x13, 0xec, 0x5f, 0x97, 0x44, 0x17, 0xc4, 0xa7, 0x7e, 0x3d, 0x64, 0x5d, 0x19, 0x73,
   0x60, 0x81, 0x4f, 0xdc, 0x22, 0x2a, 0x90, 0x88, 0x46, 0xee, 0xb8, 0x14, 0xde, 0x5e, 0x0b, 0xdb,
   0xe0, 0x32, 0x3a, 0x0a, 0x49, 0x06, 0x24, 0x5c, 0xc2, 0xd3, 0xac, 0x62, 0x91, 0x95, 0xe4, 0x79,
   0xe7, 0xc8, 0x37, 0x6d, 0x8d, 0xd5, 0x4e, 0xa9, 0x6c, 0x56, 0xf4, 0xea, 0x65, 0x7a, 0xae, 0x08,
   0xba, 0x78, 0x25, 0x2e, 0x1c, 0xa6, 0xb4, 0xc6, 0xe8, 0xdd, 0x74, 0x1f, 0x4b, 0xbd, 0x8b, 0x8a,
   0x70, 0x3e, 0xb5, 0x66, 0x48, 0x03, 0xf6, 0x0e, 0x61, 0x35, 0x57, 0xb9, 0x86, 0xc1, 0x1d, 0x9e,
   0xe1, 0xf8, 0x98, 0x11, 0x69, 0xd9, 0x8e, 0x94, 0x9b, 0x1e, 0x87, 0xe9, 0xce, 0x55, 0x28, 0xdf,
   0x8c, 0xa1, 0x89, 0x0d, 0xbf, 0xe6, 0x42, 0x68, 0x41, 0x99, 0x2d, 0x0f, 0xb0, 0x54, 0xbb, 0x16]

/-- S-box substitution. -/
def sb (b : Nat) : Nat := sboxT.getD b 0

/-- Multiplication by x in GF(2^8). -/
def xtime (b : Nat) : Nat := if b < 128 then 2 * b else (2 * b) ^^^ 0x11b

/-- SubBytes. -/
def subBytes (st : Bytes) : Bytes := st.map sb

/-- ShiftRows on the 16-byte state in standard column-major order. -/
def shiftRows (st : Bytes) : Bytes :=
  let g := fun i => st.getD i 0
  [g 0, g 5, g 10, g 15, g 4, g 9, g 14, g 3, g 8, g 13, g 2, g 7, g 12, g 1, g 6, g 11]

/-- Mixing of one column. -/
def mixCol (a b c d : Nat) : Bytes :=
  [xtime a ^^^ (xtime b ^^^ b) ^^^ c ^^^ d,
   a ^^^ xtime b ^^^ (xtime c ^^^ c) ^^^ d,
   a ^^^ b ^^^ xtime c ^^^ (xtime d ^^^ d),
   (xtime a ^^^ a) ^^^ b ^^^ c ^^^ xtime d]

/-- MixColumns. -/
def mixColumns (st : Bytes) : Bytes :=
  let g := fun i => st.getD i 0
  mixCol (g 0) (g 1) (g 2) (g 3) ++ mixCol (g 4) (g 5) (g 6) (g 7) ++
    mixCol (g 8) (g 9) (g 10) (g 11) ++ mixCol (g 12) (g 13) (g 14) (g 15)

/-- AddRoundKey. -/
def addRK (st rk : Bytes) : Bytes := List.zipWith (fun a b => a ^^^ b) st rk

/-- SubWord of the key schedule. -/
def subWord (w : Bytes) : Bytes := w.map sb

/-- RotWord of the key schedule. -/
def rotWord : Bytes → Bytes
  | [a, b, c, d] => [b, c, d, a]
  | w => w

/-- Round constants. -/
def rconV (i : Nat) : Nat := [0, 1, 2, 4, 8, 16, 32, 64].getD i 0

/-- Word `i` of the AES-256 key schedule, given the previous words. -/
def nextWord (ws : List Bytes) (key : Bytes) (i : Nat) : Bytes :=
  if i < 8 then (key.drop (4 * i)).take 4
  else
    let prev := ws.getD (i - 1) []
    let temp :=
      if i % 8 = 0 then
        List.zipWith (fun a b => a ^^^ b) (subWord (rotWord prev)) [rconV (i / 8), 0, 0, 0]
      else if i % 8 = 4 then subWord prev
      else prev
    List.zipWith (fun a b => a ^^^ b) (ws.getD (i - 8) []) temp

/-- First `n` words of the key schedule. -/
def wordsUpTo (key : Bytes) : Nat → List Bytes
  | 0 => []
  | n + 1 =>
      let ws := wordsUpTo key n
      ws ++ [nextWord ws key n]

/-- Round key `r` (four consecutive schedule words). -/
def roundKey (key : Bytes) (r : Nat) : Bytes :=
  (((wordsUpTo key 60).drop (4 * r)).take 4).flatten

/-- AES-256 block encryption (14 rounds). -/
def aesEncBlock (key blk : Bytes) : Bytes :=
  let st0 := addRK blk (roundKey key 0)
  let stm := (List.range 13).foldl
    (fun st r => addRK (mixColumns (shiftRows (subBytes st))) (roundKey key (r + 1))) st0
  addRK (shiftRows (subBytes stm)) (roundKey key 14)

/-- Big-endian bytes to natural number. -/
def beBytesToNat (bs : Bytes) : Nat := bs.foldl (fun a b => a * 256 + b) 0

/-- Big-endian rendering of a natural number over `n` bytes. -/
def natToBeBytes : Nat → Nat → Bytes
  | 0, _ => []
  | n + 1, v => natToBeBytes n (v / 256) ++ [v % 256]

/-- The GHASH reduction constant R. -/
def gfR : Nat := 0xe1000000000000000000000000000000

/-- One hundred twenty eight shift-and-add steps of GF(2^128)
multiplication (right-shift algorithm of the GCM specification). -/
def gfMulAux : Nat → Nat → Nat → Nat → Nat
  | 0, _, _, z => z
  | n + 1, y, v, z =>
      let bit := (y >>> 127) % 2
      let z' := if bit = 1 then z ^^^ v else z
      let v' := if v % 2 = 1 then (v >>> 1) ^^^ gfR else v >>> 1
      gfMulAux n ((y * 2) % 2 ^ 128) v' z'

/-- GF(2^128) multiplication. -/
def gfMul (x y : Nat) : Nat := gfMulAux 128 y x 0

/-- Zero-padding to a 16-byte boundary. -/
def pad16 (b : Bytes) : Bytes := b ++ List.replicate ((16 - b.length % 16) % 16) 0

/-- Split into 16-byte chunks (fuel-bounded). -/
def chunks16 : Nat → Bytes → List Bytes
  | 0, _ => []
  | _ + 1, [] => []
  | fuel + 1, b => b.take 16 :: chunks16 fuel (b.drop 16)

/-- GHASH block iteration. -/
def ghashBlocks (h : Nat) : List Bytes → Nat → Nat
  | [], y => y
  | blk :: rest, y => ghashBlocks h rest (gfMul (y ^^^ beBytesToNat blk) h)

/-- The hash subkey H = AES(key, 0^128). -/
def gcmH (key : Bytes) : Nat := beBytesToNat (aesEncBlock key (List.replicate 16 0))

/-- GHASH over the ciphertext with empty additional data, including the
final length block. -/
def gcmGhashFull (key ct : Bytes) : Nat :=
  ghashBlocks (gcmH key)
    (chunks16 (ct.length + 1) (pad16 ct) ++ [natToBeBytes 8 0 ++ natToBeBytes 8 (8 * ct.length)]) 0

/-- Counter block: the 12-byte nonce followed by a 32-bit big-endian
counter. -/
def ctrBlk (nonce : Bytes) (i : Nat) : Bytes := nonce ++ natToBeBytes 4 (i % 2 ^ 32)

/-- Byte `i` of the CTR keystream (payload counters start at 2, the
successor of the tag counter J0). -/
def ksByte (key nonce : Bytes) (i : Nat) : Nat :=
  (aesEncBlock key (ctrBlk nonce (2 + i / 16))).getD (i % 16) 0

/-- CTR encryption/decryption: xor the payload with the keystream from
byte offset `i`. -/
def ctrXor (key nonce : Bytes) : Nat → Bytes → Bytes
  | _, [] => []
  | i, b :: rest => (b ^^^ ksByte key nonce i) :: ctrXor key nonce (i + 1) rest

/-- The GCM authentication tag over the ciphertext (empty additional
data): E(key, J0) xor GHASH. -/
def gcmTag (key nonce ct : Bytes) : Bytes :=
  List.zipWith (fun a b => a ^^^ b) (aesEncBlock key (ctrBlk nonce 1))
    (natToBeBytes 16 (gcmGhashFull key ct))

/-- `gcm.Seal(nil, nonce, plaintext, nil)`: ciphertext followed by the
16-byte tag. -/
def gcmSeal (key nonce pt : Bytes) : Bytes :=
  let ct := ctrXor key nonce 0 pt
  ct ++ gcmTag key nonce ct

/-- `gcm.Open(nil, nonce, data, nil)`: split off the trailing tag,
recompute it and compare, then CTR-decrypt. -/
def gcmOpen (key nonce data : Bytes) : Option Bytes :=
  if data.length < 16 then none
  else
    let ct := data.take (data.length - 16)
    let tag := data.drop (data.length - 16)
    if gcmTag key nonce ct = tag then some (ctrXor key nonce 0 ct) else none

/-- The standard base64 alphabet. -/
def b64Alphabet : List Char :=
  String.toList "ABCDEFGHIJKLMNOPQRSTUVWXYZabcdefghijklmnopqrstuvwxyz0123456789+/"

/-- Character for a six-bit group. -/
def b64chr (v : Nat) : Char := b64Alphabet.getD v 'A'

/-- Index of a character in the alphabet. -/
def b64valAux : List Char → Nat → Char → Option Nat
  | [], _, _ => none
  | a :: rest, i, c => if a = c then some i else b64valAux rest (i + 1) c

/-- Six-bit value of a base64 character. -/
def b64val (c : Char) : Option Nat := b64valAux b64Alphabet 0 c

/-- `base64.StdEncoding.EncodeToString`. -/
def b64encodeBytes : Bytes → List Char
  | a :: b :: c :: rest =>
      b64chr (a / 4) :: b64chr ((a % 4) * 16 + b / 16) :: b64chr ((b % 16) * 4 + c / 64) ::
        b64chr (c % 64) :: b64encodeBytes rest
  | [a, b] => [b64chr (a / 4), b64chr ((a % 4) * 16 + b / 16), b64chr ((b % 16) * 4), '=']
  | [a] => [b64chr (a / 4), b64chr ((a % 4) * 16), '=', '=']
  | [] => []

/-- `base64.StdEncoding.DecodeString`: groups of four characters with
terminal padding only. -/
def b64decodeChars : List Char → Option Bytes
  | [] => some []
  | c1 :: c2 :: c3 :: c4 :: rest =>
      match b64val c1, b64val c2 with
      | some v1, some v2 =>
          if c3 = '=' then
            if c4 = '=' && rest.isEmpty then some [v1 * 4 + v2 / 16] else none
          else
            match b64val c3 with
            | some v3 =>
                if c4 = '=' then
                  if rest.isEmpty then some [v1 * 4 + v2 / 16, (v2 % 16) * 16 + v3 / 4] else none
                else
                  match b64val c4 with
                  | some v4 =>
                      (b64decodeChars rest).map
                        (fun bs => (v1 * 4 + v2 / 16) :: ((v2 % 16) * 16 + v3 / 4) ::
                          ((v3 % 4) * 64 + v4) :: bs)
                  | none => none
            | none => none
      | _, _ => none
  | _ => none

/-- The service key: the first 32 bytes of the configured master key
(`NewEncryptionService` requires at least 32 and truncates). -/
def serviceKey (masterKey : Bytes) : Bytes := masterKey.take 32

/-- `EncryptionService.Encrypt`: base64 of nonce followed by
`Seal(nonce, plaintext)`; the fresh random nonce is an explicit
argument. -/
def Encrypt (masterKey nonce plaintext : Bytes) : List Char :=
  b64encodeBytes (nonce ++ gcmSeal (serviceKey masterKey) nonce plaintext)

/-- `EncryptionService.Decrypt`: base64-decode, check the length covers
the nonce, split and open. -/
def Decrypt (masterKey : Bytes) (cryptoText : List Char) : Except (List Char) Bytes :=
  match b64decodeChars cryptoText with
  | none => Except.error (String.toList "illegal base64 data")
  | some data =>
      if data.length < 12 then Except.error (String.toList "ciphertext too short")
      else
        match gcmOpen (serviceKey masterKey) (data.take 12) (data.drop 12) with
        | none => Except.error (String.toList "cipher: message authentication failed")
        | some pt => Except.ok pt

/- ### The parameter parser (`internal/core/param_parser.go`) -/

/-- Result of `SQLParser.Parse`. Go mutates the `values` map in place
when it replaces a JSON-array-looking string by its parsed array; the
embedding returns the updated map as `valuesOut`. -/
structure ParseResult where
  SQL : List Char
  ParamNames : List (List Char)
  Defaults : ValuesMap
  valuesOut : ValuesMap

/-- Scan for the closing brace of a placeholder: given the characters
after an opening brace, return the content before the first closing
brace together with the input after it (the regex body allows any
character except a closing brace in the content). -/
def splitAtClose : List Char → Option (List Char × List Char)
  | [] => none
  | c :: cs =>
      if c = '}' then some ([], cs)
      else
        match splitAtClose cs with
        | some (content, rest) => some (c :: content, rest)
        | none => none

theorem splitAtClose_length {cs content rest : List Char}
    (h : splitAtClose cs = some (content, rest)) :
    cs.length = content.length + 1 + rest.length := by
  induction cs generalizing content rest with
  | nil => simp [splitAtClose] at h
  | cons c cs ih =>
      by_cases hc : c = '}'
      · simp [splitAtClose, hc] at h
        obtain ⟨h1, h2⟩ := h
        subst h1; subst h2; simp; omega
      · simp only [splitAtClose, if_neg hc] at h
        cases hs : splitAtClose cs with
        | none => rw [hs] at h; exact absurd h (by simp)
        | some pr =>
            rw [hs] at h
            obtain ⟨content', rest'⟩ := pr
            simp at h
            have := ih hs
            obtain ⟨h1, h2⟩ := h
            subst h1; subst h2
            simp [this]
            omega

/-- Join of `L` positional placeholders, `"?, ?, ?"`
(`strings.Join(placeholders, ", ")`). -/
def joinQs : Nat → List Char
  | 0 => []
  | 1 => ['?']
  | n + 2 => '?' :: ',' :: ' ' :: joinQs (n + 1)

/-- Index-encoded names appended during array expansion:
`name:0, name:1, …` (`fmt.Sprintf` with the name, a colon and the
index). -/
def idxNames (name : List Char) (L : Nat) : List (List Char) :=
  (List.range L).map (fun i => name ++ ':' :: natToDigits i)

/-- Expansion text and appended names for an array value: an empty
array renders the literal `NULL` with no names, a nonempty one renders
`L` placeholders and `L` indexed names. -/
def expandCore (name : List Char) (xs : List GoValue) : List Char × List (List Char) :=
  if xs.length = 0 then (['N', 'U', 'L', 'L'], [])
  else (joinQs xs.length, idxNames name xs.length)

/-- Processing of one matched placeholder (the body of the
`ReplaceAllStringFunc` closure in `SQLParser.Parse`): split the content
at the first colon, trim the name, register a default when present, and
perform array expansion against the values map. Returns the replacement
text, the names appended to `param_names`, and the updated defaults and
values maps. -/
def processTok (content : List Char) (values : ValuesMap) (defaults : ValuesMap) :
    List Char × List (List Char) × ValuesMap × ValuesMap :=
  let sp := splitColon content
  let paramName := trimChars sp.1
  let defaults' :=
    match sp.2 with
    | some defPart => insertAssoc defaults paramName (GoValue.str (trimChars defPart))
    | none => defaults
  match lookupAssoc values paramName with
  | some (GoValue.arr xs) =>
      let e := expandCore paramName xs
      (e.1, e.2, defaults', values)
  | some (GoValue.str s) =>
      let sv := trimChars s
      if sv.headD ' ' = '[' && sv.getLastD ' ' = ']' then
        match jsonDecodeArr sv with
        | some xs =>
            let e := expandCore paramName xs
            (e.1, e.2, defaults', insertAssoc values paramName (GoValue.arr xs))
        | none => (['?'], [paramName], defaults', values)
      else (['?'], [paramName], defaults', values)
  | some _ => (['?'], [paramName], defaults', values)
  | none => (['?'], [paramName], defaults', values)

/-- Left-to-right scan of `SQLParser.Parse`: the regex matches an
opening brace followed by at least one non-closing-brace character and
the first closing brace after it; everything else is copied verbatim.
The values and defaults maps are threaded through in match order. -/
def parseScan : ValuesMap → ValuesMap → List Char → ParseResult
  | values, defaults, [] => ⟨[], [], defaults, values⟩
  | values, defaults, c :: cs =>
      if c = '{' then
        match hs : splitAtClose cs with
        | some (content, rest) =>
            if content = [] then
              let r := parseScan values defaults cs
              ⟨'{' :: r.SQL, r.ParamNames, r.Defaults, r.valuesOut⟩
            else
              let p := processTok content values defaults
              let r := parseScan p.2.2.2 p.2.2.1 rest
              ⟨p.1 ++ r.SQL, p.2.1 ++ r.ParamNames, r.Defaults, r.valuesOut⟩
        | none =>
            let r := parseScan values defaults cs
            ⟨'{' :: r.SQL, r.ParamNames, r.Defaults, r.valuesOut⟩
      else
        let r := parseScan values defaults cs
        ⟨c :: r.SQL, r.ParamNames, r.Defaults, r.valuesOut⟩
termination_by _ _ l => l.length
decreasing_by
  all_goals simp only [List.length_cons]
  all_goals try omega
  all_goals (have h9 := splitAtClose_length hs; omega)

/-- Embedding of `SQLParser.Parse(sqlText, values)`. The `values`
argument models a non-nil Go map (the executor and the endpoint always
pass one). -/
def Parse (sqlText : List Char) (values : ValuesMap) : ParseResult :=
  parseScan values [] sqlText

/-- Fuel-indexed restatement of `parseScan` by structural recursion,
used to evaluate the parser on concrete inputs and to carry inductive
proofs; `parseScanB_eq` shows it agrees with `parseScan` whenever the
fuel covers the input length. -/
def parseScanB : Nat → ValuesMap → ValuesMap → List Char → ParseResult
  | 0, values, defaults, _ => ⟨[], [], defaults, values⟩
  | _ + 1, values, defaults, [] => ⟨[], [], defaults, values⟩
  | fuel + 1, values, defaults, c :: cs =>
      if c = '{' then
        match splitAtClose cs with
        | some (content, rest) =>
            if content = [] then
              let r := parseScanB fuel values defaults cs
              ⟨'{' :: r.SQL, r.ParamNames, r.Defaults, r.valuesOut⟩
            else
              let p := processTok content values defaults
              let r := parseScanB fuel p.2.2.2 p.2.2.1 rest
              ⟨p.1 ++ r.SQL, p.2.1 ++ r.ParamNames, r.Defaults, r.valuesOut⟩
        | none =>
            let r := parseScanB fuel values defaults cs
            ⟨'{' :: r.SQL, r.ParamNames, r.Defaults, r.valuesOut⟩
      else
        let r := parseScanB fuel values defaults cs
        ⟨c :: r.SQL, r.ParamNames, r.Defaults, r.valuesOut⟩

theorem parseScanB_eq :
    ∀ (fuel : Nat) (values defaults : ValuesMap) (s : List Char),
      s.length ≤ fuel → parseScanB fuel values defaults s = parseScan values defaults s := by
  intro fuel
  induction fuel with
  | zero =>
      intro values defaults s hs
      have : s = [] := by
        cases s with
        | nil => rfl
        | cons c cs => simp at hs
      subst this
      simp [parseScanB, parseScan]
  | succ fuel ih =>
      intro values defaults s hs
      cases s with
      | nil => simp [parseScanB, parseScan]
      | cons c cs =>
          rw [parseScan]
          simp only [parseScanB]
          by_cases hc : c = '{'
          · simp only [if_pos hc]
            cases hsp : splitAtClose cs with
            | none =>
                have : cs.length ≤ fuel := by simp at hs; omega
                rw [ih _ _ _ this]
            | some pr =>
                obtain ⟨content, rest⟩ := pr
                by_cases hcon : content = []
                · simp only [if_pos hcon]
                  have : cs.length ≤ fuel := by simp at hs; omega
                  rw [ih _ _ _ this]
                · simp only [if_neg hcon]
                  have hlen := splitAtClose_length hsp
                  have : rest.length ≤ fuel := by simp at hs; omega
                  rw [ih _ _ _ this]
          · simp only [if_neg hc]
            have : cs.length ≤ fuel := by simp at hs; omega
            rw [ih _ _ _ this]

/-- Evaluation form of `Parse` for concrete inputs. -/
theorem Parse_evalB (sqlText : List Char) (values : ValuesMap) :
    Parse sqlText values = parseScanB sqlText.length values [] sqlText :=
  (parseScanB_eq sqlText.length values [] sqlText (le_refl _)).symm

/- ### `SQLParser.MapValues` -/

/-- Outcome of `MapValues`: the positional argument list, the missing
parameter error carrying the missing names in order, or a runtime panic
(`reflect.Value.Index` with a negative index). -/
inductive MVOut where
  | ok (args : List GoValue) : MVOut
  | err (missing : List (List Char)) : MVOut
  | pan : MVOut

/-- Shared fallback tail of the `MapValues` loop body: the value map,
then the defaults map, then record the name as missing. -/
def mvFb (values defaults : ValuesMap) (name : List Char) :
    Option (Sum GoValue (List Char)) :=
  match lookupAssoc values name with
  | some v => some (Sum.inl v)
  | none =>
      match lookupAssoc defaults name with
      | some d => some (Sum.inl d)
      | none => some (Sum.inr name)

/-- Resolution of a single entry of `param_names` (one iteration of the
`MapValues` loop body): `Sum.inl` is a resolved argument, `Sum.inr` a
name recorded as missing, `none` the runtime panic that
`reflect.Value.Index` raises on a negative parsed index. -/
def mvStep (values defaults : ValuesMap) (name : List Char) :
    Option (Sum GoValue (List Char)) :=
  if name.contains ':' then
    match splitColon name with
    | (realName, some idxStr) =>
        match atoiInt idxStr with
        | some idx =>
            match lookupAssoc values realName with
            | none => some (Sum.inr realName)
            | some (GoValue.arr xs) =>
                if idx < (xs.length : Int) then
                  if 0 ≤ idx then some (Sum.inl (xs.getD idx.toNat GoValue.null))
                  else none
                else mvFb values defaults name
            | some _ => mvFb values defaults name
        | none => mvFb values defaults name
    | (_, none) => mvFb values defaults name
  else mvFb values defaults name

/-- Loop of `MapValues` over `param_names`, carrying the argument list
and the missing list (both reversed; a missing name leaves the nil zero
value in the argument slot, as the Go slice does). -/
def mvLoop (values defaults : ValuesMap) :
    List (List Char) → List GoValue → List (List Char) → MVOut
  | [], argsRev, missingRev =>
      if missingRev = [] then MVOut.ok argsRev.reverse else MVOut.err missingRev.reverse
  | name :: rest, argsRev, missingRev =>
      match mvStep values defaults name with
      | none => MVOut.pan
      | some (Sum.inl v) => mvLoop values defaults rest (v :: argsRev) missingRev
      | some (Sum.inr m) =>
          mvLoop values defaults rest (GoValue.null :: argsRev) (m :: missingRev)

/-- Embedding of `SQLParser.MapValues(paramNames, values, defaults)`. -/
def MapValues (paramNames : List (List Char)) (values defaults : ValuesMap) : MVOut :=
  mvLoop values defaults paramNames [] []

/- ### The pagination rewriter (`QueryExecutor.processSystemVariables`)

The regex is `(?i)\{\s*pagination(?::\s*(\d*)\s*:\s*(\d*)\s*)?\}`: an
opening brace, optional whitespace, the word `pagination` in any case,
an optional `:digits:digits` group whose digit runs may be empty and
may be surrounded by whitespace, and a closing brace. -/

/-- Whitespace of the regex class backslash-s in RE2
(tab, newline, form feed, carriage return, space). -/
def isReSpace (c : Char) : Bool :=
  c = '\t' || c = '\n' || c = '\x0c' || c = '\r' || c = ' '

/-- ASCII lower-casing, for the case-insensitive `pagination` match. -/
def lowerCh (c : Char) : Char :=
  if 'A' ≤ c && c ≤ 'Z' then Char.ofNat (c.toNat + 32) else c

/-- Try to match the pagination token at the very start of the input;
returns the matched text, the two digit groups (empty when absent) and
the input after the match. -/
def tryMatchPag (s : List Char) : Option (List Char × List Char × List Char × List Char) :=
  match s with
  | '{' :: cs =>
      let ws1 := cs.takeWhile isReSpace
      let cs1 := cs.dropWhile isReSpace
      let word := cs1.take 10
      if word.map lowerCh = ['p', 'a', 'g', 'i', 'n', 'a', 't', 'i', 'o', 'n'] then
        match cs1.drop 10 with
        | '}' :: rest => some ('{' :: ws1 ++ word ++ ['}'], [], [], rest)
        | ':' :: cs2 =>
            let ws2 := cs2.takeWhile isReSpace
            let cs3 := cs2.dropWhile isReSpace
            let d1 := cs3.takeWhile isDigitCh
            let cs4 := cs3.dropWhile isDigitCh
            let ws3 := cs4.takeWhile isReSpace
            match cs4.dropWhile isReSpace with
            | ':' :: cs5 =>
                let ws4 := cs5.takeWhile isReSpace
                let cs6 := cs5.dropWhile isReSpace
                let d2 := cs6.takeWhile isDigitCh
                let cs7 := cs6.dropWhile isDigitCh
                let ws5 := cs7.takeWhile isReSpace
                match cs7.dropWhile isReSpace with
                | '}' :: rest =>
                    some ('{' :: ws1 ++ word ++ ':' :: ws2 ++ d1 ++ ws3 ++ ':' ::
                      ws4 ++ d2 ++ ws5 ++ ['}'], d1, d2, rest)
                | _ => none
            | _ => none
        | _ => none
      else none
  | _ => none

/-- Leftmost match of the pagination token
(`regexp.FindStringIndex` / `FindStringSubmatch`): the matched text and
the two digit groups. -/
def findFirstPag : List Char → Option (List Char × List Char × List Char)
  | [] => none
  | c :: cs =>
      match tryMatchPag (c :: cs) with
      | some (m, g1, g2, _) => some (m, g1, g2)
      | none => findFirstPag cs

/-- Go's `strings.Replace(s, pat, repl, 1)`: replace the first
occurrence of `pat` (assumed nonempty here) in `s`. -/
def replaceFirstSub : List Char → List Char → List Char → List Char
  | [], _, _ => []
  | c :: cs, pat, repl =>
      if pat.isPrefixOf (c :: cs) then repl ++ (c :: cs).drop pat.length
      else c :: replaceFirstSub cs pat repl

/-- Dialect clause built by the `switch driver` in
`processSystemVariables`. -/
def pagClause (driver : String) (limit offset : Int) : List Char :=
  if driver = "sqlite" || driver = "postgres" then
    String.toList "LIMIT " ++ intToDigits limit ++ String.toList " OFFSET " ++ intToDigits offset
  else if driver = "mysql" then
    String.toList "LIMIT " ++ intToDigits offset ++ String.toList ", " ++ intToDigits limit
  else if driver = "odbc" || driver = "mssql" then
    String.toList "TOP " ++ intToDigits limit ++ String.toList " START AT " ++
      intToDigits (offset + 1)
  else
    String.toList "LIMIT " ++ intToDigits limit ++ String.toList " OFFSET " ++ intToDigits offset

/-- Truncation of a float64 to int (`int(val)`), on the exact rational
carried by the model: division truncating toward zero. -/
def truncRat (q : Rat) : Int := q.num.tdiv (q.den : Int)

/-- Override of a page or limit value from a request parameter
(`_page` / `_limit`): a JSON number is truncated to int, a decimal
string is parsed via `strconv.Atoi`, anything else keeps the current
value. -/
def pagOverride (params : ValuesMap) (key : List Char) (cur : Int) : Int :=
  match lookupAssoc params key with
  | some (GoValue.num q) => truncRat q
  | some (GoValue.str s) =>
      match atoiInt s with
      | some v => v
      | none => cur
  | _ => cur

/-- Embedding of `QueryExecutor.processSystemVariables(sqlText, driver,
params)`: find the first pagination token, compute the effective page
and limit (global default, then token defaults, then `_page`/`_limit`
request parameters, each clamped to at least 1) and replace the first
occurrence of the matched text by the dialect clause. -/
def processSystemVariables (sqlText : List Char) (driver : String) (params : ValuesMap) :
    List Char :=
  match findFirstPag sqlText with
  | none => sqlText
  | some (m0, g1, g2) =>
      let page0 : Int :=
        if g1 ≠ [] && 0 < digitsToNat g1 then (digitsToNat g1 : Int) else 1
      let limit0 : Int :=
        if g2 ≠ [] && 0 < digitsToNat g2 then (digitsToNat g2 : Int) else 50
      let page1 := pagOverride params ['_', 'p', 'a', 'g', 'e'] page0
      let limit1 := pagOverride params ['_', 'l', 'i', 'm', 'i', 't'] limit0
      let page := if page1 < 1 then 1 else page1
      let limit := if limit1 < 1 then 1 else limit1
      let offset := (page - 1) * limit
      replaceFirstSub sqlText m0 (pagClause driver limit offset)

/- ### The query executor (`QueryExecutor`)

The executor's collaborators are passed in as data: the connection and
query repositories as lists, the database driver (`sql.Open` /
`PingContext` / `QueryContext`) as an oracle keyed by driver name and
decrypted connection string, the request context's api-key id, and the
monotonic clock's elapsed time at defer execution. The deferred audit
emission appends exactly at each return point of `ExecuteSQL`, which is
where Go's `defer` fires. `Params` is kept as the map itself rather
than its JSON serialization (no claim inspects the serialized text;
the in-place array-normalisation of the map before the defer fires is
likewise not tracked in the audit row). -/

/-- `core.DBConnection`. -/
structure DBConnection where
  ID : Int
  Name : List Char
  Driver : String
  ConnectionStringEnc : List Char
  IsActive : Bool

/-- `core.SavedQuery` (fields the executor reads). -/
structure SavedQuery where
  ID : Int
  Slug : List Char
  SQLText : List Char
  IsActive : Bool
  AllowedConnectionIDs : List Int

/-- `core.AuditLog` as filled in by the executor's deferred audit. -/
structure AuditLog where
  Timestamp : Nat
  UserID : Int
  ApiKeyID : Option Int
  ConnectionID : Int
  QueryID : Int
  DurationMs : Int
  Status : List Char
  ErrorMessage : List Char
  Params : ValuesMap

/-- `service.ExecutionResult`. -/
structure ExecutionResult where
  Columns : List (List Char)
  Rows : List (List (List Char × GoValue))

/-- Behaviour of one opened driver handle: the `sql.Open` error, the
`PingContext` error, and the result of `QueryContext` on the rewritten
SQL and positional arguments (columns and raw rows; the `[]byte` to
string decoding of row values is folded into the oracle's `GoValue`
output). -/
structure DriverDB where
  openErr : Option (List Char)
  pingErr : Option (List Char)
  queryRes : List Char → List GoValue → Except (List Char) (List (List Char) × List (List GoValue))

/-- The executor's environment. -/
structure World where
  connections : List DBConnection
  queries : List SavedQuery
  masterKey : Bytes
  db : String → Bytes → DriverDB
  apiKeyID : Option Int
  startTime : Nat
  durationMs : Nat

/-- Error text of `database/sql` row lookups that find nothing. -/
def errNoRows : List Char := String.toList "sql: no rows in result set"

/-- `strings.Join(xs, ", ")`. -/
def joinComma : List (List Char) → List Char
  | [] => []
  | [x] => x
  | x :: xs => x ++ ',' :: ' ' :: joinComma xs

/-- The audit row written by the deferred function in `ExecuteSQL`. -/
def auditRow (w : World) (connectionID queryID : Int) (params : ValuesMap)
    (res : Except (List Char) ExecutionResult) : AuditLog :=
  { Timestamp := w.startTime
    UserID := 0
    ApiKeyID := w.apiKeyID
    ConnectionID := connectionID
    QueryID := queryID
    DurationMs := (w.durationMs : Int)
    Status :=
      match res with
      | Except.ok _ => String.toList "SUCCESS"
      | Except.error _ => String.toList "ERROR"
    ErrorMessage :=
      match res with
      | Except.ok _ => []
      | Except.error e => e
    Params := params }

/-- Outcome of an executor call: the user-visible result and the audit
rows appended during the call; `none` stands for a Go runtime panic
(which `ExecuteSQL` is proved never to hit). -/
abbrev ExecOut := Option (Except (List Char) ExecutionResult × List AuditLog)

/-- `QueryExecutor.ExecuteSQL(ctx, connectionID, sqlText, params,
queryID)`. Every return path routes through the deferred audit
append. -/
def ExecuteSQL (w : World) (connectionID : Int) (sqlText : List Char) (params : ValuesMap)
    (queryID : Int) : ExecOut :=
  let finish := fun (res : Except (List Char) ExecutionResult) =>
    some (res, [auditRow w connectionID queryID params res])
  match w.connections.find? (fun c => c.ID == connectionID) with
  | none => finish (Except.error (String.toList "connection not found: " ++ errNoRows))
  | some conn =>
      if !conn.IsActive then finish (Except.error (String.toList "connection is inactive"))
      else
        match Decrypt w.masterKey conn.ConnectionStringEnc with
        | Except.error e =>
            finish (Except.error (String.toList "failed to decrypt connection string: " ++ e))
        | Except.ok connStr =>
            let sql1 := processSystemVariables sqlText conn.Driver params
            let sql2 := processSystemVariables sql1 conn.Driver params
            let pr := Parse sql2 params
            match MapValues pr.ParamNames pr.valuesOut pr.Defaults with
            | MVOut.pan => none
            | MVOut.err missing =>
                finish (Except.error (String.toList "missing parameters: " ++ joinComma missing))
            | MVOut.ok args =>
                let d := w.db conn.Driver connStr
                match d.openErr with
                | some e =>
                    finish (Except.error (String.toList "failed to open database connection (" ++
                      conn.Driver.toList ++ String.toList "): " ++ e))
                | none =>
                    match d.pingErr with
                    | some e =>
                        finish (Except.error (String.toList "failed to ping database: " ++ e))
                    | none =>
                        match d.queryRes pr.SQL args with
                        | Except.error e =>
                            finish (Except.error (String.toList "execution error: " ++ e))
                        | Except.ok (cols, rows) =>
                            finish (Except.ok ⟨cols, rows.map (fun r => List.zip cols r)⟩)

/-- `QueryExecutor.Execute(ctx, connectionID, querySlug, params)`: look
the query up by slug and delegate; a failed lookup returns before any
audit-emitting scope is entered. -/
def Execute (w : World) (connectionID : Int) (querySlug : List Char) (params : ValuesMap) :
    ExecOut :=
  match w.queries.find? (fun q => q.Slug == querySlug) with
  | none => some (Except.error (String.toList "query not found: " ++ errNoRows), [])
  | some q => ExecuteSQL w connectionID q.SQLText params q.ID

/-- `QueryExecutor.ExecuteByName(ctx, connName, querySlug, params)`:
resolve the connection by name and delegate. -/
def ExecuteByName (w : World) (connName querySlug : List Char) (params : ValuesMap) : ExecOut :=
  match w.connections.find? (fun c => c.Name == connName) with
  | none => some (Except.error (String.toList "connection not found: " ++ errNoRows), [])
  | some conn => Execute w conn.ID querySlug params

/- ### The execution endpoint (`internal/api/handler.go`) -/

/-- `json.NewDecoder(r.Body).Decode(&params)` as used by
`Handler.ExecuteQuery`: decode the first JSON value of the body; a
JSON object populates the map, JSON `null` leaves it nil, anything
else (including a syntax error or an empty body) is an error that the
handler discards, leaving the map nil. Trailing data after the first
value is ignored by the decoder. -/
def goDecodeParams (body : List Char) : Option ValuesMap :=
  match jVal (2 * body.length + 2) body with
  | some (GoValue.obj fs, _) => some fs
  | some (GoValue.null, _) => none
  | _ => none

/-- Parameter map the handler passes to the executor: the decoded
object, or — after a discarded decode error or a nil result — a fresh
empty map. -/
def bodyToParams (body : List Char) : ValuesMap :=
  match goDecodeParams body with
  | some m => m
  | none => []

/-- HTTP response of the execution endpoint: a 200 envelope carrying
the rows, or `http.Error` with status 500 and the error text. -/
inductive HandlerResp where
  | success (rows : List (List (List Char × GoValue))) : HandlerResp
  | failure (code : Nat) (msg : List Char) : HandlerResp

/-- `Handler.ExecuteQuery`: decode the body (errors discarded), invoke
`ExecuteByName`, serialize the outcome. -/
def ExecuteQueryH (w : World) (connName querySlug body : List Char) : Option HandlerResp :=
  (ExecuteByName w connName querySlug (bodyToParams body)).map
    (fun r =>
      match r.1 with
      | Except.ok res => HandlerResp.success res.Rows
      | Except.error e => HandlerResp.failure 500 e)

example :
    (Parse (String.toList "SELECT * WHERE id = \x7bid\x7d AND s = \x7b s : active \x7d") []).SQL
      = String.toList "SELECT * WHERE id = ? AND s = ?" := by
  rw [Parse_evalB]; rfl

example :
    (Parse (String.toList "x = \x7bs:open\x7d") []).Defaults
      = [(['s'], GoValue.str ['o', 'p', 'e', 'n'])] := by
  rw [Parse_evalB]; rfl

example :
    (Parse (String.toList "IN (\x7bids\x7d)")
        [(['i', 'd', 's'], GoValue.arr [GoValue.num 1, GoValue.num 2, GoValue.num 3])]).SQL
      = String.toList "IN (?, ?, ?)" := by
  rw [Parse_evalB]; rfl

example :
    (Parse (String.toList "IN (\x7bids\x7d)") [(['i', 'd', 's'], GoValue.arr [])]).SQL
      = String.toList "IN (NULL)" := by
  rw [Parse_evalB]; rfl

example :
    MapValues [['s']] [] [(['s'], GoValue.str ['o', 'p', 'e', 'n'])]
      = MVOut.ok [GoValue.str ['o', 'p', 'e', 'n']] := by rfl

/- ### Observables used by the claims -/

/-- Number of positional placeholder characters in a piece of SQL. -/
def countQ (s : List Char) : Nat := s.count '?'

/-- Interleaving of gap texts with single placeholder characters:
`qJoin [g0, g1, …, gk] = g0 ? g1 ? … ? gk`. -/
def qJoin : List (List Char) → List Char
  | [] => []
  | [g] => g
  | g :: gs => g ++ '?' :: qJoin gs

/-- Names of one `param_names` entry
recorded as missing by the per-entry resolution, if any. -/
def stepMiss (values defaults : ValuesMap) (name : List Char) : Option (List Char) :=
  match mvStep values defaults name with
  | some (Sum.inr m) => some m
  | _ => none

/-- Argument bound for one `param_names` entry
(the nil zero value when the entry is missing). -/
def stepArg (values defaults : ValuesMap) (name : List Char) : GoValue :=
  match mvStep values defaults name with
  | some (Sum.inl v) => v
  | _ => GoValue.null

/-- Missing-name list of a `MapValues` call, in entry order. -/
def specMissing (paramNames : List (List Char)) (values defaults : ValuesMap) :
    List (List Char) :=
  paramNames.filterMap (stepMiss values defaults)

/-- Argument vector of a `MapValues` call, in entry order. -/
def specArgs (paramNames : List (List Char)) (values defaults : ValuesMap) : List GoValue :=
  paramNames.map (stepArg values defaults)

/-- Whether some entry triggers the negative-index panic. -/
def specPan (paramNames : List (List Char)) (values defaults : ValuesMap) : Bool :=
  paramNames.any (fun n => (mvStep values defaults n).isNone)

/- ### Structural facts about the parser scan -/

theorem splitAtClose_eq {cs content rest : List Char}
    (h : splitAtClose cs = some (content, rest)) :
    cs = content ++ '}' :: rest ∧ '}' ∉ content := by
  induction cs generalizing content rest with
  | nil => simp [splitAtClose] at h
  | cons c cs ih =>
      by_cases hc : c = '}'
      · simp [splitAtClose, hc] at h
        obtain ⟨h1, h2⟩ := h
        subst h1; subst h2; simp [hc]
      · simp only [splitAtClose, if_neg hc] at h
        cases hs : splitAtClose cs with
        | none => rw [hs] at h; exact absurd h (by simp)
        | some pr =>
            rw [hs] at h
            obtain ⟨content', rest'⟩ := pr
            simp at h
            obtain ⟨h1, h2⟩ := h
            subst h1; subst h2
            obtain ⟨ih1, ih2⟩ := ih hs
            constructor
            · rw [ih1]; simp
            · simp [ih2]
              intro hcc
              exact hc hcc.symm

theorem splitAtClose_append {content rest : List Char} (h : '}' ∉ content) :
    splitAtClose (content ++ '}' :: rest) = some (content, rest) := by
  induction content with
  | nil => simp [splitAtClose]
  | cons c cs ih =>
      simp at h
      push_neg at h
      obtain ⟨h1, h2⟩ := h
      have hc : ¬(c = '}') := fun hch => h1 hch.symm
      simp only [List.cons_append, splitAtClose, if_neg hc, List.append_eq]
      rw [ih h2]

theorem parseScanB_nomatch {s : List Char} (h : '{' ∉ s) :
    ∀ fuel values defaults, s.length ≤ fuel →
      parseScanB fuel values defaults s = ⟨s, [], defaults, values⟩ := by
  induction s with
  | nil =>
      intro fuel values defaults _
      cases fuel with
      | zero => simp [parseScanB]
      | succ f => simp [parseScanB]
  | cons c cs ih =>
      intro fuel values defaults hf
      simp at h
      push_neg at h
      obtain ⟨h1, h2⟩ := h
      have hc : ¬(c = '{') := fun hch => h1 hch.symm
      cases fuel with
      | zero => simp at hf
      | succ f =>
          simp only [parseScanB, if_neg hc]
          have : cs.length ≤ f := by simp at hf; omega
          rw [ih h2 f values defaults this]

theorem parseScanB_literal {pre : List Char} (h : '{' ∉ pre) :
    ∀ fuel values defaults s, pre.length + s.length ≤ fuel →
      parseScanB fuel values defaults (pre ++ s) =
        ⟨pre ++ (parseScan values defaults s).SQL, (parseScan values defaults s).ParamNames,
          (parseScan values defaults s).Defaults, (parseScan values defaults s).valuesOut⟩ := by
  induction pre with
  | nil =>
      intro fuel values defaults s hf
      simp only [List.nil_append]
      rw [parseScanB_eq fuel values defaults s (by omega)]
  | cons c cs ih =>
      intro fuel values defaults s hf
      simp at h
      push_neg at h
      obtain ⟨h1, h2⟩ := h
      have hc : ¬(c = '{') := fun hch => h1 hch.symm
      cases fuel with
      | zero => simp at hf
      | succ f =>
          rw [List.cons_append]
          simp only [parseScanB, if_neg hc]
          have : cs.length + s.length ≤ f := by simp at hf; omega
          rw [ih h2 f values defaults s this]
          simp

theorem parseScanB_tok {content : List Char} (hne : content ≠ []) (hnc : '}' ∉ content) :
    ∀ fuel values defaults post, content.length + post.length + 2 ≤ fuel →
      parseScanB fuel values defaults ('{' :: content ++ '}' :: post) =
        ⟨(processTok content values defaults).1 ++
            (parseScan (processTok content values defaults).2.2.2
              (processTok content values defaults).2.2.1 post).SQL,
          (processTok content values defaults).2.1 ++
            (parseScan (processTok content values defaults).2.2.2
              (processTok content values defaults).2.2.1 post).ParamNames,
          (parseScan (processTok content values defaults).2.2.2
            (processTok content values defaults).2.2.1 post).Defaults,
          (parseScan (processTok content values defaults).2.2.2
            (processTok content values defaults).2.2.1 post).valuesOut⟩ := by
  intro fuel values defaults post hf
  cases fuel with
  | zero => simp at hf
  | succ f =>
      have : ('{' :: content ++ '}' :: post) = '{' :: (content ++ '}' :: post) := by simp
      rw [this]
      simp only [parseScanB, if_true, splitAtClose_append hnc, if_neg hne]
      rw [parseScanB_eq f _ _ post (by simp at hf; omega)]

/-- Composition: a brace-free prefix, one placeholder match, and an
arbitrary tail. -/
theorem parseScan_ctx {pre content : List Char} (hpre : '{' ∉ pre)
    (hne : content ≠ []) (hnc : '}' ∉ content) (post : List Char)
    (values defaults : ValuesMap) :
    parseScan values defaults (pre ++ '{' :: (content ++ '}' :: post)) =
      ⟨pre ++ (processTok content values defaults).1 ++
          (parseScan (processTok content values defaults).2.2.2
            (processTok content values defaults).2.2.1 post).SQL,
        (processTok content values defaults).2.1 ++
          (parseScan (processTok content values defaults).2.2.2
            (processTok content values defaults).2.2.1 post).ParamNames,
        (parseScan (processTok content values defaults).2.2.2
          (processTok content values defaults).2.2.1 post).Defaults,
        (parseScan (processTok content values defaults).2.2.2
          (processTok content values defaults).2.2.1 post).valuesOut⟩ := by
  have hsub : parseScan values defaults ('{' :: (content ++ '}' :: post)) =
      ⟨(processTok content values defaults).1 ++
          (parseScan (processTok content values defaults).2.2.2
            (processTok content values defaults).2.2.1 post).SQL,
        (processTok content values defaults).2.1 ++
          (parseScan (processTok content values defaults).2.2.2
            (processTok content values defaults).2.2.1 post).ParamNames,
        (parseScan (processTok content values defaults).2.2.2
          (processTok content values defaults).2.2.1 post).Defaults,
        (parseScan (processTok content values defaults).2.2.2
          (processTok content values defaults).2.2.1 post).valuesOut⟩ := by
    rw [← parseScanB_eq (('{' :: (content ++ '}' :: post)).length) values defaults _ (le_refl _)]
    exact parseScanB_tok hne hnc (('{' :: (content ++ '}' :: post)).length) values defaults post
      (by simp; omega)
  rw [← parseScanB_eq ((pre ++ '{' :: (content ++ '}' :: post)).length) values defaults _
    (le_refl _)]
  rw [parseScanB_literal hpre ((pre ++ '{' :: (content ++ '}' :: post)).length) values defaults
    ('{' :: (content ++ '}' :: post)) (by simp)]
  rw [hsub]
  simp

/- ### Decimal digits and `strconv.Atoi` -/

theorem parseScan_nomatch {s : List Char} (h : '{' ∉ s) (values defaults : ValuesMap) :
    parseScan values defaults s = ⟨s, [], defaults, values⟩ := by
  rw [← parseScanB_eq s.length values defaults s (le_refl _)]
  exact parseScanB_nomatch h s.length values defaults (le_refl _)

theorem digitVal_digitChar : ∀ n, n < 10 → digitVal (digitChar n) = n := by decide

theorem isDigitCh_digitChar : ∀ n, n < 10 → isDigitCh (digitChar n) = true := by decide

theorem digitsToNat_append_digit (xs : List Char) (d : Char) :
    digitsToNat (xs ++ [d]) = digitsToNat xs * 10 + digitVal d := by
  simp [digitsToNat, List.foldl_append]

theorem natDigitsAux_all : ∀ fuel n, (natDigitsAux fuel n).all isDigitCh = true := by
  intro fuel
  induction fuel with
  | zero => intro n; simp [natDigitsAux]
  | succ f ih =>
      intro n
      by_cases h : n < 10
      · simp [natDigitsAux, h, isDigitCh_digitChar n h]
      · simp only [natDigitsAux, if_neg h, List.all_append]
        rw [ih (n / 10)]
        simp [isDigitCh_digitChar (n % 10) (Nat.mod_lt n (by omega))]

theorem natDigitsAux_correct : ∀ fuel n, n < 10 ^ fuel →
    digitsToNat (natDigitsAux fuel n) = n := by
  intro fuel
  induction fuel with
  | zero =>
      intro n hn
      simp at hn
      subst hn
      simp [natDigitsAux, digitsToNat]
  | succ f ih =>
      intro n hn
      by_cases h : n < 10
      · simp [natDigitsAux, h, digitsToNat, digitVal_digitChar n h]
      · simp only [natDigitsAux, if_neg h]
        rw [digitsToNat_append_digit]
        have hdiv : n / 10 < 10 ^ f := by
          rw [Nat.div_lt_iff_lt_mul (by omega)]
          calc n < 10 ^ (f + 1) := hn
          _ = 10 ^ f * 10 := by ring
        rw [ih (n / 10) hdiv, digitVal_digitChar (n % 10) (Nat.mod_lt n (by omega))]
        omega

theorem digits_roundtrip (n : Nat) : digitsToNat (natToDigits n) = n := by
  apply natDigitsAux_correct
  calc n < 10 ^ n := Nat.lt_pow_self (by norm_num) n
  _ ≤ 10 ^ (n + 1) := Nat.pow_le_pow_right (by norm_num) (Nat.le_succ n)

theorem natToDigits_ne_nil (n : Nat) : natToDigits n ≠ [] := by
  by_cases h : n < 10
  · simp [natToDigits, natDigitsAux, h]
  · simp [natToDigits, natDigitsAux, h]

theorem natToDigits_all (n : Nat) : (natToDigits n).all isDigitCh = true :=
  natDigitsAux_all (n + 1) n

theorem not_mem_of_digits {c : Char} (hc : isDigitCh c = false) {ds : List Char}
    (h : ds.all isDigitCh = true) : c ∉ ds := by
  intro hm
  rw [List.all_eq_true] at h
  have := h c hm
  rw [this] at hc
  exact absurd hc (by simp)

theorem atoi_digits {ds : List Char} (hne : ds ≠ []) (hd : ds.all isDigitCh = true) :
    atoiInt ds = some (digitsToNat ds : Int) := by
  cases ds with
  | nil => exact absurd rfl hne
  | cons c cs =>
      have hc : isDigitCh c = true := by
        rw [List.all_eq_true] at hd
        exact hd c (by simp)
      have h1 : ¬(c = '+') := by intro h; subst h; exact absurd hc (by decide)
      have h2 : ¬(c = '-') := by intro h; subst h; exact absurd hc (by decide)
      simp only [atoiInt, if_neg h1, if_neg h2, if_pos hd]

/- ### `SplitN` facts -/

theorem splitColon_no {s : List Char} (h : ':' ∉ s) : splitColon s = (s, none) := by
  induction s with
  | nil => simp [splitColon]
  | cons c cs ih =>
      simp at h
      push_neg at h
      obtain ⟨h1, h2⟩ := h
      have hc : ¬(c = ':') := fun hch => h1 hch.symm
      simp [splitColon, hc, ih h2]

theorem splitColon_append {a : List Char} (h : ':' ∉ a) (b : List Char) :
    splitColon (a ++ ':' :: b) = (a, some b) := by
  induction a with
  | nil => simp [splitColon]
  | cons c cs ih =>
      simp at h
      push_neg at h
      obtain ⟨h1, h2⟩ := h
      have hc : ¬(c = ':') := fun hch => h1 hch.symm
      simp [splitColon, hc, ih h2]

/- ### `processTok` characterization -/

theorem processTok_arr {name : List Char} (h1 : ':' ∉ name) (h3 : trimChars name = name)
    {values : ValuesMap} {xs : List GoValue}
    (hv : lookupAssoc values name = some (GoValue.arr xs)) (defaults : ValuesMap) :
    processTok name values defaults =
      ((expandCore name xs).1, (expandCore name xs).2, defaults, values) := by
  simp only [processTok, splitColon_no h1, h3, hv]

theorem expandCore_pos {name : List Char} {xs : List GoValue} (h : xs ≠ []) :
    expandCore name xs = (joinQs xs.length, idxNames name xs.length) := by
  have : ¬(xs.length = 0) := by simp [h]
  simp [expandCore, this]

theorem expandCore_nil (name : List Char) :
    expandCore name [] = (['N', 'U', 'L', 'L'], []) := by
  simp [expandCore]

theorem idxNames_length (name : List Char) (L : Nat) : (idxNames name L).length = L := by
  simp [idxNames]

theorem countQ_joinQs : ∀ L, countQ (joinQs L) = L := by
  intro L
  induction L with
  | zero => simp [joinQs, countQ]
  | succ m ih =>
      cases m with
      | zero => simp [joinQs, countQ]
      | succ k =>
          have hk : joinQs (k + 2) = '?' :: ',' :: ' ' :: joinQs (k + 1) := rfl
          rw [hk]
          simp only [countQ] at ih ⊢
          rw [List.count_cons, List.count_cons, List.count_cons]
          simp [ih]

theorem processTok_shape (content : List Char) (values defaults : ValuesMap) :
    ((processTok content values defaults).1 = ['?'] ∧
      ∃ nm, (processTok content values defaults).2.1 = [nm]) ∨
    (∃ nm L, 1 ≤ L ∧ (processTok content values defaults).1 = joinQs L ∧
      (processTok content values defaults).2.1 = idxNames nm L) ∨
    ((processTok content values defaults).1 = ['N', 'U', 'L', 'L'] ∧
      (processTok content values defaults).2.1 = []) := by
  simp only [processTok]
  split
  · rename_i xs _
    cases hxs : xs with
    | nil => right; right; simp [expandCore]
    | cons y ys =>
        subst hxs
        right; left
        refine ⟨trimChars (splitColon content).1, (y :: ys).length, by simp, ?_, ?_⟩ <;>
          simp [expandCore_pos (List.cons_ne_nil y ys)]
  · split
    · split
      · rename_i xs _
        cases hxs : xs with
        | nil => right; right; simp [expandCore]
        | cons y ys =>
            subst hxs
            right; left
            refine ⟨trimChars (splitColon content).1, (y :: ys).length, by simp, ?_, ?_⟩ <;>
              simp [expandCore_pos (List.cons_ne_nil y ys)]
      · left; exact ⟨rfl, _, rfl⟩
    · left; exact ⟨rfl, _, rfl⟩
  · left; exact ⟨rfl, _, rfl⟩
  · left; exact ⟨rfl, _, rfl⟩

theorem processTok_countQ (content : List Char) (values defaults : ValuesMap) :
    countQ (processTok content values defaults).1 =
      (processTok content values defaults).2.1.length := by
  rcases processTok_shape content values defaults with ⟨h1, nm, h2⟩ | ⟨nm, L, hL, h1, h2⟩ | ⟨h1, h2⟩
  · rw [h1, h2]; simp [countQ]
  · rw [h1, h2, countQ_joinQs, idxNames_length]
  · rw [h1, h2]; simp [countQ]

/- ### Placeholder counting and alignment -/

theorem countQ_nil : countQ [] = 0 := rfl

theorem countQ_cons_zero {c : Char} {cs : List Char} (h : countQ (c :: cs) = 0) :
    ¬(c = '?') ∧ countQ cs = 0 := by
  simp only [countQ, List.count_cons] at h
  constructor
  · intro hc
    subst hc
    simp at h
  · simp only [countQ]
    omega

theorem countQ_append (a b : List Char) : countQ (a ++ b) = countQ a + countQ b := by
  simp [countQ, List.count_append]

theorem countQ_cons_ne {c : Char} (h : ¬(c = '?')) (l : List Char) :
    countQ (c :: l) = countQ l := by
  simp [countQ, List.count_cons, h]

theorem parseScanB_countQ : ∀ fuel (values defaults : ValuesMap) s, s.length ≤ fuel →
    countQ s = 0 →
    countQ (parseScanB fuel values defaults s).SQL =
      (parseScanB fuel values defaults s).ParamNames.length := by
  intro fuel
  induction fuel with
  | zero => intro v d s _ _; simp [parseScanB, countQ]
  | succ f ih =>
      intro v d s hf hq
      cases s with
      | nil => simp [parseScanB, countQ]
      | cons c cs =>
          obtain ⟨hcq, hq2⟩ := countQ_cons_zero hq
          have hcs : cs.length ≤ f := by simp at hf; omega
          by_cases hc : c = '{'
          · subst hc
            simp only [parseScanB, if_true]
            cases hsp : splitAtClose cs with
            | none =>
                rw [countQ_cons_ne (by decide), ih v d cs hcs hq2]
            | some pr =>
                obtain ⟨content, rest⟩ := pr
                by_cases hcon : content = []
                · simp only [if_pos hcon]
                  rw [countQ_cons_ne (by decide), ih v d cs hcs hq2]
                · simp only [if_neg hcon]
                  obtain ⟨hcs_eq, _⟩ := splitAtClose_eq hsp
                  have hrest_len : rest.length ≤ f := by
                    have := splitAtClose_length hsp
                    omega
                  have hrest_q : countQ rest = 0 := by
                    rw [hcs_eq, countQ_append] at hq2
                    have := @countQ_cons_zero '}' rest (by omega)
                    exact this.2
                  rw [countQ_append, processTok_countQ,
                    ih (processTok content v d).2.2.2 (processTok content v d).2.2.1 rest
                      hrest_len hrest_q]
                  simp
          · simp only [parseScanB, if_neg hc]
            rw [countQ_cons_ne hcq, ih v d cs hcs hq2]

theorem qJoin_cons_head (a g : List Char) (gs : List (List Char)) :
    qJoin ((a ++ g) :: gs) = a ++ qJoin (g :: gs) := by
  cases gs with
  | nil => simp [qJoin]
  | cons g2 gs2 => simp [qJoin]

theorem qJoin_nil_head {gs : List (List Char)} (h : gs ≠ []) :
    qJoin ([] :: gs) = '?' :: qJoin gs := by
  cases gs with
  | nil => exact absurd rfl h
  | cons g2 gs2 => simp [qJoin]

theorem qJoin_exp : ∀ (L : Nat) (gaps : List (List Char)), 1 ≤ L → gaps ≠ [] →
    qJoin ([] :: (List.replicate (L - 1) [',', ' '] ++ gaps)) = joinQs L ++ qJoin gaps := by
  intro L
  induction L with
  | zero => intro gaps h; omega
  | succ m ih =>
      intro gaps _ hg
      cases m with
      | zero =>
          simp only [List.replicate, List.nil_append]
          rw [qJoin_nil_head hg]
          rfl
      | succ k =>
          have hrep : (k + 2) - 1 = k + 1 := by omega
          rw [hrep, List.replicate_succ, List.cons_append]
          rw [qJoin_nil_head (by simp)]
          have step : qJoin (([',', ' '] : List Char) :: (List.replicate k [',', ' '] ++ gaps)) =
              [',', ' '] ++ qJoin (([] : List Char) :: (List.replicate k [',', ' '] ++ gaps)) := by
            have := qJoin_cons_head [',', ' '] [] (List.replicate k [',', ' '] ++ gaps)
            simpa using this
          rw [step]
          have ihk := ih gaps (by omega) hg
          have hk1 : (k + 1) - 1 = k := by omega
          rw [hk1] at ihk
          rw [ihk]
          rfl

theorem parseScanB_gaps : ∀ fuel (values defaults : ValuesMap) s, s.length ≤ fuel →
    countQ s = 0 →
    ∃ gaps : List (List Char), gaps ≠ [] ∧
      gaps.length = (parseScanB fuel values defaults s).ParamNames.length + 1 ∧
      (parseScanB fuel values defaults s).SQL = qJoin gaps ∧
      ∀ g ∈ gaps, countQ g = 0 := by
  intro fuel
  induction fuel with
  | zero =>
      intro v d s _ _
      exact ⟨[[]], by simp, by simp [parseScanB], by simp [parseScanB, qJoin], by simp [countQ]⟩
  | succ f ih =>
      intro v d s hf hq
      cases s with
      | nil =>
          exact ⟨[[]], by simp, by simp [parseScanB], by simp [parseScanB, qJoin],
            by simp [countQ]⟩
      | cons c cs =>
          obtain ⟨hcq, hq2⟩ := countQ_cons_zero hq
          have hcs : cs.length ≤ f := by simp at hf; omega
          by_cases hc : c = '{'
          · subst hc
            simp only [parseScanB, if_true]
            cases hsp : splitAtClose cs with
            | none =>
                obtain ⟨gaps, hne, hlen, hsql, hfree⟩ := ih v d cs hcs hq2
                obtain ⟨g0, gs, rfl⟩ := List.exists_cons_of_ne_nil hne
                refine ⟨('{' :: g0) :: gs, by simp, by simpa using hlen, ?_, ?_⟩
                · have := qJoin_cons_head ['{'] g0 gs
                  simp only [List.cons_append, List.nil_append] at this
                  rw [this, ← hsql]
                · intro g hg
                  cases hg with
                  | head =>
                      have := hfree g0 (by simp)
                      rw [countQ_cons_ne (by decide)]
                      exact this
                  | tail _ hg2 => exact hfree g (List.mem_cons_of_mem _ hg2)
            | some pr =>
                obtain ⟨content, rest⟩ := pr
                by_cases hcon : content = []
                · simp only [if_pos hcon]
                  obtain ⟨gaps, hne, hlen, hsql, hfree⟩ := ih v d cs hcs hq2
                  obtain ⟨g0, gs, rfl⟩ := List.exists_cons_of_ne_nil hne
                  refine ⟨('{' :: g0) :: gs, by simp, by simpa using hlen, ?_, ?_⟩
                  · have := qJoin_cons_head ['{'] g0 gs
                    simp only [List.cons_append, List.nil_append] at this
                    rw [this, ← hsql]
                  · intro g hg
                    cases hg with
                    | head =>
                        have := hfree g0 (by simp)
                        rw [countQ_cons_ne (by decide)]
                        exact this
                    | tail _ hg2 => exact hfree g (List.mem_cons_of_mem _ hg2)
                · simp only [if_neg hcon]
                  obtain ⟨hcs_eq, _⟩ := splitAtClose_eq hsp
                  have hrest_len : rest.length ≤ f := by
                    have := splitAtClose_length hsp
                    omega
                  have hrest_q : countQ rest = 0 := by
                    rw [hcs_eq, countQ_append] at hq2
                    have := @countQ_cons_zero '}' rest (by omega)
                    exact this.2
                  obtain ⟨gaps, hne, hlen, hsql, hfree⟩ :=
                    ih (processTok content v d).2.2.2 (processTok content v d).2.2.1 rest
                      hrest_len hrest_q
                  rcases processTok_shape content v d with ⟨hp1, nm, hp2⟩ |
                    ⟨nm, L, hL, hp1, hp2⟩ | ⟨hp1, hp2⟩
                  · refine ⟨[] :: gaps, by simp, ?_, ?_, ?_⟩
                    · simp [hp2, hlen]
                    · rw [hp1, qJoin_nil_head hne, ← hsql]
                      rfl
                    · intro g hg
                      cases hg with
                      | head => simp [countQ]
                      | tail _ hg2 => exact hfree g hg2
                  · refine ⟨[] :: (List.replicate (L - 1) [',', ' '] ++ gaps), by simp, ?_, ?_, ?_⟩
                    · simp [hp2, hlen, idxNames_length]
                      omega
                    · rw [hp1, qJoin_exp L gaps hL hne, ← hsql]
                    · intro g hg
                      simp at hg
                      rcases hg with hg | ⟨_, hg⟩ | hg
                      · subst hg; simp [countQ]
                      · subst hg; decide
                      · exact hfree g hg
                  · obtain ⟨g0, gs, rfl⟩ := List.exists_cons_of_ne_nil hne
                    refine ⟨(['N', 'U', 'L', 'L'] ++ g0) :: gs, by simp, ?_, ?_, ?_⟩
                    · simp [hp2]
                      simpa using hlen
                    · rw [hp1, qJoin_cons_head, ← hsql]
                    · intro g hg
                      cases hg with
                      | head =>
                          have := hfree g0 (by simp)
                          rw [countQ_append]
                          have hnull : countQ ['N', 'U', 'L', 'L'] = 0 := by decide
                          rw [hnull, this]
                      | tail _ hg2 => exact hfree g (List.mem_cons_of_mem _ hg2)
          · simp only [parseScanB, if_neg hc]
            obtain ⟨gaps, hne, hlen, hsql, hfree⟩ := ih v d cs hcs hq2
            obtain ⟨g0, gs, rfl⟩ := List.exists_cons_of_ne_nil hne
            refine ⟨(c :: g0) :: gs, by simp, by simpa using hlen, ?_, ?_⟩
            · have := qJoin_cons_head [c] g0 gs
              simp only [List.cons_append, List.nil_append] at this
              rw [this, ← hsql]
            · intro g hg
              cases hg with
              | head =>
                  have := hfree g0 (by simp)
                  rw [countQ_cons_ne hcq]
                  exact this
              | tail _ hg2 => exact hfree g (List.mem_cons_of_mem _ hg2)

/- ### Binding of expanded array parameters -/

theorem map_getD_range (xs : List GoValue) :
    List.map (fun j => xs[j]?.getD GoValue.null) (List.range xs.length) = xs := by
  apply List.ext_getElem
  · simp
  · intro i h1 h2
    simp [List.getElem?_eq_getElem h2]

theorem mvStep_idx {name : List Char} (hn : ':' ∉ name) {values : ValuesMap}
    {xs : List GoValue} (hv : lookupAssoc values name = some (GoValue.arr xs))
    (defaults : ValuesMap) {j : Nat} (hj : j < xs.length) :
    mvStep values defaults (name ++ ':' :: natToDigits j) =
      some (Sum.inl (xs.getD j GoValue.null)) := by
  have hcont : (name ++ ':' :: natToDigits j).contains ':' = true :=
    List.elem_eq_true_of_mem (by simp)
  simp only [mvStep, hcont, if_true, splitColon_append hn,
    atoi_digits (natToDigits_ne_nil j) (natToDigits_all j), hv, digits_roundtrip]
  have h1 : ((j : Int) < (xs.length : Int)) := by exact_mod_cast hj
  have h2 : (0 : Int) ≤ (j : Int) := by exact_mod_cast Nat.zero_le j
  simp [h1, h2]

theorem mvLoop_nil (values defaults : ValuesMap) (a : List GoValue) (m : List (List Char)) :
    mvLoop values defaults [] a m =
      if m = [] then MVOut.ok a.reverse else MVOut.err m.reverse := by
  simp [mvLoop]

theorem mvLoop_cons_inl {values defaults : ValuesMap} {n : List Char} {w : GoValue}
    (h : mvStep values defaults n = some (Sum.inl w)) (rest : List (List Char))
    (a : List GoValue) (m : List (List Char)) :
    mvLoop values defaults (n :: rest) a m = mvLoop values defaults rest (w :: a) m := by
  simp only [mvLoop, h]

theorem mvLoop_idx {name : List Char} (hn : ':' ∉ name) {values : ValuesMap}
    {xs : List GoValue} (hv : lookupAssoc values name = some (GoValue.arr xs))
    (defaults : ValuesMap) :
    ∀ (js : List Nat), (∀ j ∈ js, j < xs.length) →
      ∀ (argsRev : List GoValue) (missingRev : List (List Char)),
      mvLoop values defaults (js.map (fun i => name ++ ':' :: natToDigits i))
          argsRev missingRev =
        mvLoop values defaults []
          ((js.map (fun j => xs.getD j GoValue.null)).reverse ++ argsRev) missingRev := by
  intro js
  induction js with
  | nil => intro _ a m; simp
  | cons j js ih =>
      intro hjs a m
      rw [List.map_cons, mvLoop_cons_inl (mvStep_idx hn hv defaults (hjs j (by simp)))]
      rw [ih (fun x hx => hjs x (List.mem_cons_of_mem _ hx)) (xs.getD j GoValue.null :: a) m]
      congr 1
      simp

theorem mapValues_idxNames {name : List Char} (hn : ':' ∉ name) {values : ValuesMap}
    {xs : List GoValue} (hv : lookupAssoc values name = some (GoValue.arr xs))
    (defaults : ValuesMap) :
    MapValues (idxNames name xs.length) values defaults = MVOut.ok xs := by
  rw [MapValues, idxNames]
  rw [mvLoop_idx hn hv defaults (List.range xs.length)
    (fun j hj => List.mem_range.mp hj) [] []]
  rw [mvLoop_nil]
  simp [map_getD_range]

/-- Claim C4: a placeholder whose value is a nonempty array of length L
expands to L comma-separated placeholders with index-encoded names that
`MapValues` binds positionally in order, and an empty array renders the
literal `NULL` with no names. -/
theorem claim_C4_array_expansion
    (pre post name : List Char) (values : ValuesMap) (xs : List GoValue)
    (hpre : '{' ∉ pre) (hpost : '{' ∉ post)
    (hn1 : ':' ∉ name) (hn2 : '}' ∉ name) (hn0 : name ≠ [])
    (htrim : trimChars name = name)
    (hv : lookupAssoc values name = some (GoValue.arr xs)) :
    (xs ≠ [] →
      Parse (pre ++ '{' :: (name ++ '}' :: post)) values =
        ⟨pre ++ joinQs xs.length ++ post, idxNames name xs.length, [], values⟩ ∧
      MapValues (idxNames name xs.length) values [] = MVOut.ok xs) ∧
    (xs = [] →
      Parse (pre ++ '{' :: (name ++ '}' :: post)) values =
        ⟨pre ++ ['N', 'U', 'L', 'L'] ++ post, [], [], values⟩) := by
  have hctx := parseScan_ctx hpre hn0 hn2 post values []
  rw [processTok_arr hn1 htrim hv []] at hctx
  constructor
  · intro hne
    rw [expandCore_pos hne] at hctx
    constructor
    · rw [Parse]
      simp only at hctx
      rw [hctx, parseScan_nomatch hpost values []]
      simp
    · exact mapValues_idxNames hn1 hv []
  · intro hnil
    subst hnil
    rw [expandCore_nil] at hctx
    rw [Parse]
    simp only at hctx
    rw [hctx, parseScan_nomatch hpost values []]
    simp

/-- Witness for C4 at the array-expansion example of the specification:
`IN ({ids})` with a three-element array and with an empty array. -/
theorem claim_C4_witness :
    (Parse (String.toList "IN (" ++ '{' :: (String.toList "ids" ++ '}' :: String.toList ")"))
        [(String.toList "ids", GoValue.arr [GoValue.num 1, GoValue.num 2, GoValue.num 3])] =
      ⟨String.toList "IN (" ++ joinQs 3 ++ String.toList ")",
        idxNames (String.toList "ids") 3, [],
        [(String.toList "ids", GoValue.arr [GoValue.num 1, GoValue.num 2, GoValue.num 3])]⟩ ∧
      MapValues (idxNames (String.toList "ids") 3)
        [(String.toList "ids", GoValue.arr [GoValue.num 1, GoValue.num 2, GoValue.num 3])] [] =
        MVOut.ok [GoValue.num 1, GoValue.num 2, GoValue.num 3]) ∧
    Parse (String.toList "IN (" ++ '{' :: (String.toList "ids" ++ '}' :: String.toList ")"))
        [(String.toList "ids", GoValue.arr [])] =
      ⟨String.toList "IN (" ++ ['N', 'U', 'L', 'L'] ++ String.toList ")", [], [],
        [(String.toList "ids", GoValue.arr [])]⟩ := by
  constructor
  · exact (claim_C4_array_expansion (String.toList "IN (") (String.toList ")")
      (String.toList "ids")
      [(String.toList "ids", GoValue.arr [GoValue.num 1, GoValue.num 2, GoValue.num 3])]
      [GoValue.num 1, GoValue.num 2, GoValue.num 3]
      (by decide) (by decide) (by decide) (by decide) (by decide) (by decide) rfl).1
      (by simp)
  · exact (claim_C4_array_expansion (String.toList "IN (") (String.toList ")")
      (String.toList "ids") [(String.toList "ids", GoValue.arr [])] []
      (by decide) (by decide) (by decide) (by decide) (by decide) (by decide) rfl).2 rfl

/-- Claim C5 (amended): for SQL text without literal question marks, the
number of placeholder characters in the rewritten SQL equals the length
of `param_names`, and the rewritten SQL decomposes into
placeholder-free gaps interleaved with exactly those placeholders in
left-to-right order. -/
theorem claim_C5_param_count (T : List Char) (values : ValuesMap) (h : countQ T = 0) :
    countQ (Parse T values).SQL = (Parse T values).ParamNames.length ∧
    ∃ gaps : List (List Char), gaps ≠ [] ∧
      gaps.length = (Parse T values).ParamNames.length + 1 ∧
      (Parse T values).SQL = qJoin gaps ∧ ∀ g ∈ gaps, countQ g = 0 := by
  rw [Parse_evalB]
  exact ⟨parseScanB_countQ T.length values [] T (le_refl _) h,
    parseScanB_gaps T.length values [] T (le_refl _) h⟩

/-- Witness for C5 at a two-placeholder statement with an array value. -/
theorem claim_C5_witness :
    countQ (String.toList "x = \x7ba\x7d AND y IN (\x7bids\x7d)") = 0 ∧
    (countQ (Parse (String.toList "x = \x7ba\x7d AND y IN (\x7bids\x7d)")
        [(String.toList "ids", GoValue.arr [GoValue.num 1, GoValue.num 2])]).SQL =
      (Parse (String.toList "x = \x7ba\x7d AND y IN (\x7bids\x7d)")
        [(String.toList "ids", GoValue.arr [GoValue.num 1, GoValue.num 2])]).ParamNames.length ∧
    ∃ gaps : List (List Char), gaps ≠ [] ∧
      gaps.length = (Parse (String.toList "x = \x7ba\x7d AND y IN (\x7bids\x7d)")
        [(String.toList "ids", GoValue.arr [GoValue.num 1, GoValue.num 2])]).ParamNames.length + 1 ∧
      (Parse (String.toList "x = \x7ba\x7d AND y IN (\x7bids\x7d)")
        [(String.toList "ids", GoValue.arr [GoValue.num 1, GoValue.num 2])]).SQL = qJoin gaps ∧
      ∀ g ∈ gaps, countQ g = 0) :=
  ⟨by decide, claim_C5_param_count _ _ (by decide)⟩

/-- Counterexample to C5 as stated: a literal question mark in the SQL
text survives into the rewritten SQL but contributes no parameter
name. -/
theorem claim_C5_counterexample :
    ¬(countQ (Parse ['?'] []).SQL = (Parse ['?'] []).ParamNames.length) := by
  rw [Parse_evalB]
  decide

/- ### `MapValues` versus its per-entry resolution -/

theorem mvLoop_spec (values defaults : ValuesMap) :
    ∀ (names : List (List Char)) (argsRev : List GoValue) (missingRev : List (List Char)),
      mvLoop values defaults names argsRev missingRev =
        if specPan names values defaults then MVOut.pan
        else if missingRev.reverse ++ specMissing names values defaults = []
          then MVOut.ok (argsRev.reverse ++ specArgs names values defaults)
          else MVOut.err (missingRev.reverse ++ specMissing names values defaults) := by
  intro names
  induction names with
  | nil =>
      intro a m
      simp only [specPan, specMissing, specArgs, List.any_nil, List.filterMap_nil,
        List.map_nil, List.append_nil, mvLoop, Bool.false_eq_true, if_false]
      by_cases hm : m = []
      · subst hm; simp
      · simp [hm]
  | cons n names ih =>
      intro a m
      cases hstep : mvStep values defaults n with
      | none =>
          simp only [mvLoop, hstep]
          have hpan : specPan (n :: names) values defaults = true := by
            simp [specPan, hstep]
          rw [hpan]
          simp
      | some sv =>
          cases sv with
          | inl v =>
              simp only [mvLoop, hstep]
              rw [ih (v :: a) m]
              have h1 : specPan (n :: names) values defaults =
                  specPan names values defaults := by
                simp [specPan, hstep]
              have h2 : specMissing (n :: names) values defaults =
                  specMissing names values defaults := by
                simp [specMissing, stepMiss, hstep]
              have h3 : specArgs (n :: names) values defaults =
                  v :: specArgs names values defaults := by
                simp [specArgs, stepArg, hstep]
              rw [h1, h2, h3]
              simp
          | inr mn =>
              simp only [mvLoop, hstep]
              rw [ih (GoValue.null :: a) (mn :: m)]
              have h1 : specPan (n :: names) values defaults =
                  specPan names values defaults := by
                simp [specPan, hstep]
              have h2 : specMissing (n :: names) values defaults =
                  mn :: specMissing names values defaults := by
                simp [specMissing, stepMiss, hstep]
              have h3 : specArgs (n :: names) values defaults =
                  GoValue.null :: specArgs names values defaults := by
                simp [specArgs, stepArg, hstep]
              rw [h1, h2, h3]
              by_cases hp : specPan names values defaults = true
              · simp [hp]
              · simp only [Bool.not_eq_true] at hp
                rw [hp]
                simp

/-- Claim C6 (amended): `MapValues` resolves each entry by the
per-entry procedure `mvStep` (indexed array lookup for a `root:idx`
name — recording the root as missing when it is absent from the value
map, panicking on a negative parsed index against an array, and falling
back to the value map then the defaults map under the full name
otherwise); it returns the missing names in entry order exactly when
one exists, and an argument vector exactly when none is missing and no
panic occurs. A default such as `{s:open}` with `s` absent binds the
string `open`. -/
theorem claim_C6_mapvalues_resolution :
    (∀ (paramNames : List (List Char)) (values defaults : ValuesMap),
      MapValues paramNames values defaults =
        if specPan paramNames values defaults then MVOut.pan
        else if specMissing paramNames values defaults = []
          then MVOut.ok (specArgs paramNames values defaults)
          else MVOut.err (specMissing paramNames values defaults)) ∧
    (∀ (paramNames : List (List Char)) (values defaults : ValuesMap),
      (∃ args, MapValues paramNames values defaults = MVOut.ok args) ↔
        (specPan paramNames values defaults = false ∧
          specMissing paramNames values defaults = [])) ∧
    MapValues (Parse (String.toList "x = \x7bs:open\x7d") []).ParamNames
        (Parse (String.toList "x = \x7bs:open\x7d") []).valuesOut
        (Parse (String.toList "x = \x7bs:open\x7d") []).Defaults =
      MVOut.ok [GoValue.str (String.toList "open")] := by
  have hmain : ∀ (paramNames : List (List Char)) (values defaults : ValuesMap),
      MapValues paramNames values defaults =
        if specPan paramNames values defaults then MVOut.pan
        else if specMissing paramNames values defaults = []
          then MVOut.ok (specArgs paramNames values defaults)
          else MVOut.err (specMissing paramNames values defaults) := by
    intro names values defaults
    rw [MapValues, mvLoop_spec values defaults names [] []]
    simp
  refine ⟨hmain, ?_, ?_⟩
  · intro names values defaults
    rw [hmain names values defaults]
    by_cases hp : specPan names values defaults = true
    · simp [hp]
    · simp only [Bool.not_eq_true] at hp
      rw [hp]
      by_cases hm : specMissing names values defaults = []
      · simp [hm]
      · simp [hm]
  · rw [Parse_evalB]
    rfl

/-- Witness for C6: a name resolved from the value map, one from the
defaults and one missing. -/
theorem claim_C6_witness :
    MapValues [['a'], ['b'], ['c']] [(['a'], GoValue.num 7)] [(['b'], GoValue.str ['y'])] =
      MVOut.err [['c']] := by
  rw [(claim_C6_mapvalues_resolution).1 [['a'], ['b'], ['c']] [(['a'], GoValue.num 7)]
    [(['b'], GoValue.str ['y'])]]
  rfl

/-- Counterexample to C6 as stated: for the indexed name `a:0` with `a`
absent from the value map, the code records `a` as missing without
consulting the value or defaults maps under `a:0`, so a default stored
under the full name is not applied. -/
theorem claim_C6_counterexample :
    MapValues [String.toList "a:0"] [] [(String.toList "a:0", GoValue.str ['x'])] =
      MVOut.err [['a']] ∧
    ¬(MapValues [String.toList "a:0"] [] [(String.toList "a:0", GoValue.str ['x'])] =
      MVOut.ok [GoValue.str ['x']]) := by
  refine ⟨rfl, ?_⟩
  intro h
  rw [show MapValues [String.toList "a:0"] [] [(String.toList "a:0", GoValue.str ['x'])] =
    MVOut.err [['a']] from rfl] at h
  exact MVOut.noConfusion h

/- ### Pagination token matching -/

theorem digit_not_space {c : Char} (h : isDigitCh c = true) : isReSpace c = false := by
  simp only [isReSpace]
  simp only [Bool.or_eq_false_iff, decide_eq_false_iff_not]
  refine ⟨⟨⟨⟨?_, ?_⟩, ?_⟩, ?_⟩, ?_⟩ <;>
    (intro he; subst he; exact absurd h (by decide))

theorem spanP_append {p : Char → Bool} {ds : List Char} (h : ∀ c ∈ ds, p c = true)
    {e : Char} (he : p e = false) (r : List Char) :
    (ds ++ e :: r).takeWhile p = ds ∧ (ds ++ e :: r).dropWhile p = e :: r := by
  induction ds with
  | nil => simp [List.takeWhile_cons, List.dropWhile_cons, he]
  | cons c cs ih =>
      have hc := h c (by simp)
      have ih2 := ih (fun x hx => h x (List.mem_cons_of_mem _ hx))
      simp only [List.cons_append, List.takeWhile_cons, List.dropWhile_cons, hc, if_true]
      rw [ih2.1, ih2.2]
      simp [hc]

theorem tryMatchPag_not_brace {c : Char} (h : ¬(c = '{')) (x : List Char) :
    tryMatchPag (c :: x) = none := by
  unfold tryMatchPag
  split
  · rename_i heq
    injection heq with h1 _
    exact absurd h1.symm (fun he => h he.symm)
  · rfl

theorem findFirstPag_skip {pre : List Char} (h : '{' ∉ pre) (s : List Char) :
    findFirstPag (pre ++ s) = findFirstPag s := by
  induction pre with
  | nil => simp
  | cons c cs ih =>
      simp at h
      push_neg at h
      obtain ⟨h1, h2⟩ := h
      have hc : ¬(c = '{') := fun hch => h1 hch.symm
      rw [List.cons_append, findFirstPag, tryMatchPag_not_brace hc]
      exact ih h2

theorem findFirstPag_at {s m g1 g2 rest : List Char}
    (h : tryMatchPag s = some (m, g1, g2, rest)) :
    findFirstPag s = some (m, g1, g2) := by
  cases s with
  | nil => rw [show tryMatchPag [] = none from rfl] at h; exact absurd h (by simp)
  | cons c cs => rw [findFirstPag, h]

theorem tryMatchPag_plain (rest : List Char) :
    tryMatchPag (String.toList "\x7bpagination\x7d" ++ rest) =
      some (String.toList "\x7bpagination\x7d", [], [], rest) := rfl

theorem replaceFirstSub_after {pre : List Char} (hpre : '{' ∉ pre) (t post repl : List Char) :
    replaceFirstSub (pre ++ ('{' :: t) ++ post) ('{' :: t) repl = pre ++ repl ++ post := by
  induction pre with
  | nil =>
      simp only [List.nil_append, List.cons_append]
      rw [replaceFirstSub]
      have hp : ('{' :: t).isPrefixOf ('{' :: t ++ post) = true := by
        rw [List.isPrefixOf_iff_prefix]
        exact List.prefix_append _ _
      simp only [List.cons_append] at hp ⊢
      rw [if_pos hp]
      have : ('{' :: (t ++ post)).drop ('{' :: t).length = post := by
        have := List.drop_left ('{' :: t) post
        simpa using this
      rw [this]
  | cons c cs ih =>
      simp at hpre
      push_neg at hpre
      obtain ⟨h1, h2⟩ := hpre
      simp only [List.cons_append]
      rw [replaceFirstSub]
      have hnp : ('{' :: t).isPrefixOf (c :: (cs ++ ('{' :: t) ++ post)) = false := by
        simp only [List.isPrefixOf]
        have : ('{' == c) = false := by
          simp only [beq_eq_false_iff_ne]
          exact h1
        rw [this]
        simp
      rw [hnp]
      simp only [Bool.false_eq_true, if_false]
      have := ih h2
      simp only [List.cons_append, List.append_assoc] at this ⊢
      rw [this]

theorem not_brace_natToDigits (n : Nat) : '{' ∉ natToDigits n :=
  not_mem_of_digits (by decide) (natToDigits_all n)

theorem not_brace_intToDigits (i : Int) : '{' ∉ intToDigits i := by
  unfold intToDigits
  split
  · intro hm
    rcases List.mem_cons.mp hm with h | h
    · exact absurd h (by decide)
    · exact not_brace_natToDigits _ h
  · exact not_brace_natToDigits _

theorem not_brace_pagClause (d : String) (l o : Int) : '{' ∉ pagClause d l o := by
  have h1 := not_brace_intToDigits l
  have h2 := not_brace_intToDigits o
  have h3 := not_brace_intToDigits (o + 1)
  unfold pagClause
  split
  · simp only [List.mem_append, not_or]
    exact ⟨⟨⟨by decide, h1⟩, by decide⟩, h2⟩
  · split
    · simp only [List.mem_append, not_or]
      exact ⟨⟨⟨by decide, h2⟩, by decide⟩, h1⟩
    · split
      · simp only [List.mem_append, not_or]
        exact ⟨⟨⟨by decide, h1⟩, by decide⟩, h3⟩
      · simp only [List.mem_append, not_or]
        exact ⟨⟨⟨by decide, h1⟩, by decide⟩, h2⟩

theorem clampInt (i : Int) : (if i < 1 then 1 else i) = max 1 i := by
  split <;> omega

/-- Claim C7: the pagination rewriter replaces the `\x7bpagination\x7d`
token using the effective page and limit — request parameters `_page` /
`_limit` when present and parseable, else the token defaults, else
(1, 50), each clamped to at least 1 — and emits the dialect clause with
offset (page-1)*limit: `LIMIT l OFFSET o` for sqlite/postgres/default,
`LIMIT o, l` for mysql, `TOP l START AT o+1` for mssql/odbc. -/
theorem claim_C7_pagination_rewrite :
    (∀ (driver : String) (params : ValuesMap) (pre post : List Char), '{' ∉ pre →
      processSystemVariables (pre ++ String.toList "\x7bpagination\x7d" ++ post) driver params =
        pre ++ pagClause driver
          (max 1 (pagOverride params (String.toList "_limit") 50))
          ((max 1 (pagOverride params (String.toList "_page") 1) - 1) *
            max 1 (pagOverride params (String.toList "_limit") 50)) ++ post) ∧
    processSystemVariables (String.toList "SELECT x FROM t \x7bpagination\x7d") "sqlite" [] =
      String.toList "SELECT x FROM t LIMIT 50 OFFSET 0" ∧
    processSystemVariables (String.toList "SELECT x FROM t \x7bpagination\x7d") "sqlite"
        [(String.toList "_page", GoValue.num 3), (String.toList "_limit", GoValue.num 20)] =
      String.toList "SELECT x FROM t LIMIT 20 OFFSET 40" ∧
    processSystemVariables (String.toList "SELECT x FROM t \x7bpagination\x7d") "mysql"
        [(String.toList "_page", GoValue.num 3), (String.toList "_limit", GoValue.num 20)] =
      String.toList "SELECT x FROM t LIMIT 40, 20" ∧
    processSystemVariables (String.toList "SELECT x FROM t \x7bpagination\x7d") "mssql"
        [(String.toList "_page", GoValue.num 3), (String.toList "_limit", GoValue.num 20)] =
      String.toList "SELECT x FROM t TOP 20 START AT 41" ∧
    processSystemVariables (String.toList "SELECT x FROM t \x7bpagination:2:10\x7d") "sqlite" [] =
      String.toList "SELECT x FROM t LIMIT 10 OFFSET 10" ∧
    processSystemVariables (String.toList "SELECT x FROM t \x7bpagination:2:10\x7d") "sqlite"
        [(String.toList "_page", GoValue.num 3), (String.toList "_limit", GoValue.num 20)] =
      String.toList "SELECT x FROM t LIMIT 20 OFFSET 40" ∧
    processSystemVariables (String.toList "SELECT x FROM t \x7bpagination\x7d") "sqlite"
        [(String.toList "_page", GoValue.num 0), (String.toList "_limit", GoValue.num 0)] =
      String.toList "SELECT x FROM t LIMIT 1 OFFSET 0" := by
  refine ⟨?_, rfl, rfl, rfl, rfl, rfl, rfl, rfl⟩
  intro driver params pre post hpre
  have hfind : findFirstPag (pre ++ String.toList "\x7bpagination\x7d" ++ post) =
      some (String.toList "\x7bpagination\x7d", [], []) := by
    rw [List.append_assoc, findFirstPag_skip hpre]
    exact findFirstPag_at (tryMatchPag_plain post)
  simp only [processSystemVariables]
  rw [hfind]
  have hg : (decide (([] : List Char) ≠ []) && decide (0 < digitsToNat [])) = false := by decide
  simp only [hg, Bool.false_eq_true, if_false, clampInt]
  have htok : String.toList "\x7bpagination\x7d" = '{' :: String.toList "pagination\x7d" := rfl
  rw [htok, replaceFirstSub_after hpre (String.toList "pagination\x7d") post _]
  rfl
/-- Witness for C7: the general rewrite equation at a concrete prefix,
suffix, driver and parameter map. -/
theorem claim_C7_witness :
    processSystemVariables (String.toList "SELECT a FROM t " ++
        String.toList "\x7bpagination\x7d" ++ String.toList " ORDER BY a") "postgres"
        [(String.toList "_page", GoValue.num 2)] =
      String.toList "SELECT a FROM t " ++
        pagClause "postgres"
          (max 1 (pagOverride [(String.toList "_page", GoValue.num 2)]
            (String.toList "_limit") 50))
          ((max 1 (pagOverride [(String.toList "_page", GoValue.num 2)]
              (String.toList "_page") 1) - 1) *
            max 1 (pagOverride [(String.toList "_page", GoValue.num 2)]
              (String.toList "_limit") 50)) ++ String.toList " ORDER BY a" :=
  claim_C7_pagination_rewrite.1 "postgres" [(String.toList "_page", GoValue.num 2)]
    (String.toList "SELECT a FROM t ") (String.toList " ORDER BY a") (by decide)

/-- Effective dialect clause of one rewriter invocation, as established
by `claim_C7_pagination_rewrite`. -/
def pagEff (driver : String) (params : ValuesMap) : List Char :=
  pagClause driver (max 1 (pagOverride params (String.toList "_limit") 50))
    ((max 1 (pagOverride params (String.toList "_page") 1) - 1) *
      max 1 (pagOverride params (String.toList "_limit") 50))

theorem psv_first_only (driver : String) (params : ValuesMap)
    {pre mid : List Char} (hpre : '{' ∉ pre) (hmid : '{' ∉ mid) (post : List Char) :
    processSystemVariables
        (pre ++ (String.toList "\x7bpagination\x7d" ++
          (mid ++ (String.toList "\x7bpagination\x7d" ++ post)))) driver params =
      pre ++ (pagEff driver params ++
        (mid ++ (String.toList "\x7bpagination\x7d" ++ post))) := by
  have hfind : findFirstPag (pre ++ (String.toList "\x7bpagination\x7d" ++
      (mid ++ (String.toList "\x7bpagination\x7d" ++ post)))) =
      some (String.toList "\x7bpagination\x7d", [], []) := by
    rw [findFirstPag_skip hpre]
    exact findFirstPag_at (tryMatchPag_plain _)
  simp only [processSystemVariables]
  rw [hfind]
  have hg : (decide (([] : List Char) ≠ []) && decide (0 < digitsToNat [])) = false := by decide
  simp only [hg, Bool.false_eq_true, if_false, clampInt]
  have htok : String.toList "\x7bpagination\x7d" = '{' :: String.toList "pagination\x7d" := rfl
  rw [htok]
  simp only [List.cons_append]
  have h2 := replaceFirstSub_after hpre (String.toList "pagination\x7d")
    (mid ++ ('{' :: (String.toList "pagination\x7d" ++ post)))
    (pagClause driver (max 1 (pagOverride params ['_', 'l', 'i', 'm', 'i', 't'] 50))
      ((max 1 (pagOverride params ['_', 'p', 'a', 'g', 'e'] 1) - 1) *
        max 1 (pagOverride params ['_', 'l', 'i', 'm', 'i', 't'] 50)))
  simp only [List.append_assoc, List.cons_append] at h2
  rw [h2]
  rfl

/-- Claim C8 (amended): one invocation of the rewriter replaces only
the first pagination token, but `ExecuteSQL` invokes it twice in
succession, so the first two occurrences are replaced and only the
third and later ones reach the parameter parser unchanged. -/
theorem claim_C8_double_rewrite :
    (∀ (driver : String) (params : ValuesMap) (pre mid post : List Char),
      '{' ∉ pre → '{' ∉ mid →
      processSystemVariables
          (pre ++ (String.toList "\x7bpagination\x7d" ++
            (mid ++ (String.toList "\x7bpagination\x7d" ++ post)))) driver params =
        pre ++ (pagEff driver params ++
          (mid ++ (String.toList "\x7bpagination\x7d" ++ post)))) ∧
    (∀ (driver : String) (params : ValuesMap) (pre mid1 mid2 post : List Char),
      '{' ∉ pre → '{' ∉ mid1 → '{' ∉ mid2 →
      processSystemVariables (processSystemVariables
          (pre ++ (String.toList "\x7bpagination\x7d" ++
            (mid1 ++ (String.toList "\x7bpagination\x7d" ++
              (mid2 ++ (String.toList "\x7bpagination\x7d" ++ post)))))) driver params)
          driver params =
        pre ++ (pagEff driver params ++
          (mid1 ++ (pagEff driver params ++
            (mid2 ++ (String.toList "\x7bpagination\x7d" ++ post)))))) := by
  refine ⟨fun driver params pre mid post hpre hmid =>
    psv_first_only driver params hpre hmid post, ?_⟩
  intro driver params pre mid1 mid2 post hpre hmid1 hmid2
  rw [psv_first_only driver params hpre hmid1
    (mid2 ++ (String.toList "\x7bpagination\x7d" ++ post))]
  have hpre2 : '{' ∉ pre ++ (pagEff driver params ++ mid1) := by
    intro hm
    rcases List.mem_append.mp hm with h | h
    · exact hpre h
    · rcases List.mem_append.mp h with h2 | h2
      · exact not_brace_pagClause driver _ _ h2
      · exact hmid1 h2
  have h2 := psv_first_only driver params hpre2 hmid2 post
  simp only [List.append_assoc] at h2
  rw [h2]

/-- Witness for C8 at a concrete three-token statement. -/
theorem claim_C8_witness :
    processSystemVariables (processSystemVariables
        (String.toList "A " ++ (String.toList "\x7bpagination\x7d" ++
          (String.toList " B " ++ (String.toList "\x7bpagination\x7d" ++
            (String.toList " C " ++ (String.toList "\x7bpagination\x7d" ++
              String.toList " D")))))) "sqlite" []) "sqlite" [] =
      String.toList "A " ++ (pagEff "sqlite" [] ++
        (String.toList " B " ++ (pagEff "sqlite" [] ++
          (String.toList " C " ++ (String.toList "\x7bpagination\x7d" ++
            String.toList " D"))))) :=
  claim_C8_double_rewrite.2 "sqlite" [] (String.toList "A ") (String.toList " B ")
    (String.toList " C ") (String.toList " D") (by decide) (by decide) (by decide)

/-- Counterexample to C8 as stated: with two pagination tokens, the SQL
that reaches the parameter parser has both replaced, not just the
first. -/
theorem claim_C8_counterexample :
    processSystemVariables (processSystemVariables
        (String.toList "A \x7bpagination\x7d B \x7bpagination\x7d C") "sqlite" [])
        "sqlite" [] =
      String.toList "A LIMIT 50 OFFSET 0 B LIMIT 50 OFFSET 0 C" ∧
    ¬(processSystemVariables (processSystemVariables
        (String.toList "A \x7bpagination\x7d B \x7bpagination\x7d C") "sqlite" [])
        "sqlite" [] =
      String.toList "A LIMIT 50 OFFSET 0 B \x7bpagination\x7d C") :=
  ⟨rfl, by decide⟩

/- ### The execution endpoint's body handling -/

/-- A driver oracle that refuses every query; used for concrete
environments. -/
def noDriver : DriverDB :=
  ⟨none, none, fun _ _ => Except.error (String.toList "no database")⟩

/-- An environment with an empty catalog. -/
def emptyWorld : World :=
  { connections := [], queries := [], masterKey := [], db := fun _ _ => noDriver,
    apiKeyID := none, startTime := 0, durationMs := 0 }

/-- Claim C10: a request body that does not decode to a JSON object —
missing, empty, or syntactically invalid — is treated exactly like the
empty object: the decode error is discarded, the executor runs with an
empty non-nil map, and the handler's response is always the serialized
executor outcome (success envelope or status 500 with the executor's
error), never a client error raised by body decoding. -/
theorem claim_C10_body_decode :
    (∀ body : List Char, goDecodeParams body = none → bodyToParams body = []) ∧
    bodyToParams (String.toList "\x7b\x7d") = [] ∧
    (∀ (w : World) (cn qs body : List Char), goDecodeParams body = none →
      ExecuteQueryH w cn qs body = ExecuteQueryH w cn qs (String.toList "\x7b\x7d")) ∧
    (∀ (w : World) (cn qs body : List Char) (res : ExecutionResult) (logs : List AuditLog),
      ExecuteByName w cn qs (bodyToParams body) = some (Except.ok res, logs) →
      ExecuteQueryH w cn qs body = some (HandlerResp.success res.Rows)) ∧
    (∀ (w : World) (cn qs body e : List Char) (logs : List AuditLog),
      ExecuteByName w cn qs (bodyToParams body) = some (Except.error e, logs) →
      ExecuteQueryH w cn qs body = some (HandlerResp.failure 500 e)) := by
  refine ⟨?_, rfl, ?_, ?_, ?_⟩
  · intro body h
    simp [bodyToParams, h]
  · intro w cn qs body h
    rw [ExecuteQueryH, ExecuteQueryH]
    rw [show bodyToParams body = [] by simp [bodyToParams, h]]
    rw [show bodyToParams (String.toList "\x7b\x7d") = [] from rfl]
  · intro w cn qs body res logs h
    rw [ExecuteQueryH, h]
    rfl
  · intro w cn qs body e logs h
    rw [ExecuteQueryH, h]
    rfl

/-- Witness for C10: a syntactically invalid body behaves like the
empty object against a concrete environment. -/
theorem claim_C10_witness :
    ExecuteQueryH emptyWorld (String.toList "c") (String.toList "q")
        (String.toList "\x7boops") =
      ExecuteQueryH emptyWorld (String.toList "c") (String.toList "q")
        (String.toList "\x7b\x7d") :=
  claim_C10_body_decode.2.2.1 emptyWorld (String.toList "c") (String.toList "q")
    (String.toList "\x7boops") rfl

/- ### The executor never panics in `MapValues` -/

/-- Names that cannot trigger the negative-index panic: any parsed
index suffix is nonnegative. -/
def goodName (n : List Char) : Prop :=
  ∀ realName idxStr idx, splitColon n = (realName, some idxStr) →
    atoiInt idxStr = some idx → 0 ≤ idx

theorem mem_trimChars {c : Char} {l : List Char} (h : c ∈ trimChars l) : c ∈ l := by
  simp only [trimChars] at h
  rw [List.mem_reverse] at h
  have h2 : List.Sublist (List.dropWhile isGoSpace ((l.dropWhile isGoSpace).reverse))
      ((l.dropWhile isGoSpace).reverse) := List.dropWhile_sublist isGoSpace
  have h3 := h2.mem h
  rw [List.mem_reverse] at h3
  exact (List.dropWhile_sublist isGoSpace).mem h3

theorem splitColon_fst (content : List Char) : ':' ∉ (splitColon content).1 := by
  induction content with
  | nil => simp [splitColon]
  | cons c cs ih =>
      by_cases hc : c = ':'
      · simp [splitColon, hc]
      · simp only [splitColon, if_neg hc]
        intro hm
        rcases List.mem_cons.mp hm with h | h
        · exact hc h.symm
        · exact ih h

theorem goodName_no_colon {n : List Char} (h : ':' ∉ n) : goodName n := by
  intro realName idxStr idx hsp
  rw [splitColon_no h] at hsp
  exact absurd hsp (by simp)

theorem goodName_idx {nm : List Char} (h : ':' ∉ nm) (i : Nat) :
    goodName (nm ++ ':' :: natToDigits i) := by
  intro realName idxStr idx hsp hat
  rw [splitColon_append h] at hsp
  obtain ⟨h1, h2⟩ := Prod.mk.injEq .. ▸ hsp
  simp at h2
  subst h2
  rw [atoi_digits (natToDigits_ne_nil i) (natToDigits_all i)] at hat
  have : idx = (digitsToNat (natToDigits i) : Int) := by
    exact (Option.some.injEq .. ▸ hat).symm ▸ rfl
  rw [this]
  exact_mod_cast Nat.zero_le _

theorem processTok_names (content : List Char) (values defaults : ValuesMap) :
    (processTok content values defaults).2.1 = [trimChars (splitColon content).1] ∨
    (∃ L, (processTok content values defaults).2.1 =
      idxNames (trimChars (splitColon content).1) L) ∨
    (processTok content values defaults).2.1 = [] := by
  simp only [processTok]
  split
  · rename_i xs _
    cases hxs : xs with
    | nil => right; right; simp [expandCore]
    | cons y ys =>
        subst hxs
        right; left
        exact ⟨(y :: ys).length, by simp [expandCore_pos (List.cons_ne_nil y ys)]⟩
  · split
    · split
      · rename_i xs _
        cases hxs : xs with
        | nil => right; right; simp [expandCore]
        | cons y ys =>
            subst hxs
            right; left
            exact ⟨(y :: ys).length, by simp [expandCore_pos (List.cons_ne_nil y ys)]⟩
      · left; rfl
    · left; rfl
  · left; rfl
  · left; rfl

theorem processTok_names_good (content : List Char) (values defaults : ValuesMap) :
    ∀ n ∈ (processTok content values defaults).2.1, goodName n := by
  have hpn : ':' ∉ trimChars (splitColon content).1 :=
    fun hm => splitColon_fst content (mem_trimChars hm)
  rcases processTok_names content values defaults with h | ⟨L, h⟩ | h
  · rw [h]
    intro n hn
    rcases List.mem_cons.mp hn with h2 | h2
    · subst h2; exact goodName_no_colon hpn
    · exact absurd h2 (by simp)
  · rw [h]
    intro n hn
    simp only [idxNames, List.mem_map, List.mem_range] at hn
    obtain ⟨i, _, rfl⟩ := hn
    exact goodName_idx hpn i
  · rw [h]
    intro n hn
    exact absurd hn (by simp)

theorem parseScanB_names_good : ∀ fuel (values defaults : ValuesMap) s,
    ∀ n ∈ (parseScanB fuel values defaults s).ParamNames, goodName n := by
  intro fuel
  induction fuel with
  | zero => intro v d s n hn; simp [parseScanB] at hn
  | succ f ih =>
      intro v d s n hn
      cases s with
      | nil => simp [parseScanB] at hn
      | cons c cs =>
          by_cases hc : c = '{'
          · subst hc
            simp only [parseScanB, if_true] at hn
            cases hsp : splitAtClose cs with
            | none =>
                rw [hsp] at hn
                simp only [] at hn
                exact ih v d cs n hn
            | some pr =>
                obtain ⟨content, rest⟩ := pr
                rw [hsp] at hn
                simp only [] at hn
                by_cases hcon : content = []
                · rw [if_pos hcon] at hn
                  exact ih v d cs n hn
                · rw [if_neg hcon] at hn
                  simp only [List.mem_append] at hn
                  rcases hn with hn | hn
                  · exact processTok_names_good content v d n hn
                  · exact ih _ _ rest n hn
          · simp only [parseScanB, if_neg hc] at hn
            exact ih v d cs n hn

theorem mvFb_isSome (values defaults : ValuesMap) (name : List Char) :
    mvFb values defaults name ≠ none := by
  unfold mvFb
  split
  · simp
  · split
    · simp
    · simp

theorem mvStep_isSome {n : List Char} (hg : goodName n) (values defaults : ValuesMap) :
    mvStep values defaults n ≠ none := by
  unfold mvStep
  split
  · split
    · split
      · split
        · simp
        · split
          · split
            · simp
            · rename_i hnonneg
              rename_i heqsp o1 idx heqat o2 xs heql hlt
              exact absurd (hg _ _ _ heqsp heqat) hnonneg
          · exact mvFb_isSome values defaults n
        · exact mvFb_isSome values defaults n
      · exact mvFb_isSome values defaults n
    · exact mvFb_isSome values defaults n
  · exact mvFb_isSome values defaults n

theorem mvLoop_no_pan {values defaults : ValuesMap} :
    ∀ (names : List (List Char)), (∀ n ∈ names, goodName n) →
      ∀ argsRev missingRev, mvLoop values defaults names argsRev missingRev ≠ MVOut.pan := by
  intro names
  induction names with
  | nil =>
      intro _ a m
      rw [mvLoop_nil]
      split
      · simp
      · simp
  | cons n rest ih =>
      intro hg a m
      cases hstep : mvStep values defaults n with
      | none => exact absurd hstep (mvStep_isSome (hg n (by simp)) values defaults)
      | some sv =>
          cases sv with
          | inl v =>
              rw [mvLoop_cons_inl hstep]
              exact ih (fun x hx => hg x (List.mem_cons_of_mem _ hx)) (v :: a) m
          | inr mn =>
              simp only [mvLoop, hstep]
              exact ih (fun x hx => hg x (List.mem_cons_of_mem _ hx))
                (GoValue.null :: a) (mn :: m)

theorem MapValues_parse_no_pan (T : List Char) (v v2 d2 : ValuesMap) :
    MapValues (Parse T v).ParamNames v2 d2 ≠ MVOut.pan := by
  rw [MapValues, Parse_evalB]
  exact mvLoop_no_pan _ (parseScanB_names_good T.length v [] T) [] []

/- ### The audit invariant of `ExecuteSQL` -/

theorem ExecuteSQL_one_row (w : World) (cid : Int) (sql : List Char) (params : ValuesMap)
    (qid : Int) : ∃ res, ExecuteSQL w cid sql params qid =
      some (res, [auditRow w cid qid params res]) := by
  simp only [ExecuteSQL]
  split
  · exact ⟨_, rfl⟩
  · split
    · exact ⟨_, rfl⟩
    · split
      · exact ⟨_, rfl⟩
      · split
        · rename_i hpan
          exact absurd hpan (MapValues_parse_no_pan _ params _ _)
        · exact ⟨_, rfl⟩
        · split
          · exact ⟨_, rfl⟩
          · split
            · exact ⟨_, rfl⟩
            · split
              · exact ⟨_, rfl⟩
              · exact ⟨_, rfl⟩

/-- Claim C2: every call to `ExecuteSQL` — whatever step fails —
appends exactly one audit row, with status `SUCCESS` exactly on
success, the failure message on error, and a nonnegative duration; but
`Execute` with an unknown slug fails before the audited scope and
appends zero audit rows, contradicting the invariant for the by-slug
entry point. -/
theorem claim_C2_audit_rows :
    (∀ (w : World) (cid : Int) (sql : List Char) (params : ValuesMap) (qid : Int),
      ∃ res row, ExecuteSQL w cid sql params qid = some (res, [row]) ∧
        row.Status = (match res with
          | Except.ok _ => String.toList "SUCCESS"
          | Except.error _ => String.toList "ERROR") ∧
        row.ErrorMessage = (match res with
          | Except.ok _ => []
          | Except.error e => e) ∧
        0 ≤ row.DurationMs) ∧
    Execute emptyWorld 1 (String.toList "nosuch") [] =
      some (Except.error (String.toList "query not found: " ++ errNoRows), []) := by
  constructor
  · intro w cid sql params qid
    obtain ⟨res, hres⟩ := ExecuteSQL_one_row w cid sql params qid
    exact ⟨res, auditRow w cid qid params res, hres, rfl, rfl,
      Int.ofNat_nonneg w.durationMs⟩
  · rfl

/- ### Byte bounds and lengths of the embedded AES-GCM pipeline -/

theorem getD_lt {l : List Nat} (h : ∀ x ∈ l, x < 256) (i : Nat) : l.getD i 0 < 256 := by
  by_cases hi : i < l.length
  · rw [List.getD_eq_getElem _ _ hi]
    exact h _ (List.getElem_mem hi)
  · rw [List.getD_eq_default _ _ (Nat.le_of_not_lt hi)]
    norm_num

theorem sb_lt (b : Nat) : sb b < 256 := getD_lt (by decide) b

theorem zipWith_xor_lt {l1 l2 : List Nat} (h1 : ∀ a ∈ l1, a < 256) (h2 : ∀ b ∈ l2, b < 256) :
    ∀ x ∈ List.zipWith (fun a b => a ^^^ b) l1 l2, x < 256 := by
  induction l1 generalizing l2 with
  | nil => intro x hx; simp at hx
  | cons a rest ih =>
      intro x hx
      cases l2 with
      | nil => simp at hx
      | cons b rest2 =>
          rcases List.mem_cons.mp hx with rfl | hx2
          · exact Nat.xor_lt_two_pow (show a < 2 ^ 8 from h1 a (by simp))
              (show b < 2 ^ 8 from h2 b (by simp))
          · exact ih (fun y hy => h1 y (List.mem_cons_of_mem _ hy))
              (fun y hy => h2 y (List.mem_cons_of_mem _ hy)) x hx2

theorem subBytes_lt (st : Bytes) : ∀ x ∈ subBytes st, x < 256 := by
  intro x hx
  simp only [subBytes, List.mem_map] at hx
  obtain ⟨b, _, rfl⟩ := hx
  exact sb_lt b

theorem shiftRows_lt {st : Bytes} (h : ∀ x ∈ st, x < 256) : ∀ x ∈ shiftRows st, x < 256 := by
  intro x hx
  simp only [shiftRows, List.mem_cons, List.not_mem_nil, or_false] at hx
  rcases hx with hxe | hxe | hxe | hxe | hxe | hxe | hxe | hxe | hxe | hxe | hxe | hxe | hxe |
    hxe | hxe | hxe <;> (subst hxe; exact getD_lt h _)

theorem shiftRows_length (st : Bytes) : (shiftRows st).length = 16 := rfl

theorem rotWord_length (w : Bytes) : (rotWord w).length = w.length := by
  unfold rotWord
  split <;> rfl

theorem rotWord_subset (w : Bytes) : ∀ x ∈ rotWord w, x ∈ w := by
  unfold rotWord
  split
  · intro x hx
    simp only [List.mem_cons, List.not_mem_nil, or_false] at hx
    simp only [List.mem_cons, List.not_mem_nil, or_false]
    tauto
  · intro x hx; exact hx

theorem subWord_spec {w : Bytes} : (subWord w).length = w.length ∧ ∀ x ∈ subWord w, x < 256 := by
  refine ⟨List.length_map .., ?_⟩
  intro x hx
  simp only [subWord, List.mem_map] at hx
  obtain ⟨b, _, rfl⟩ := hx
  exact sb_lt b

theorem rconV_lt (i : Nat) : rconV i < 256 := getD_lt (by decide) i

theorem wordsUpTo_spec {key : Bytes} (hk : key.length = 32) (hb : ∀ b ∈ key, b < 256) :
    ∀ n, (wordsUpTo key n).length = n ∧
      ∀ w ∈ wordsUpTo key n, w.length = 4 ∧ ∀ b ∈ w, b < 256 := by
  intro n
  induction n with
  | zero => exact ⟨rfl, by simp [wordsUpTo]⟩
  | succ m ih =>
      obtain ⟨ihl, ihm⟩ := ih
      have hgetD : ∀ i, i < m → ((wordsUpTo key m).getD i []).length = 4 ∧
          ∀ b ∈ (wordsUpTo key m).getD i [], b < 256 := by
        intro i hi
        have hi' : i < (wordsUpTo key m).length := by rw [ihl]; exact hi
        rw [List.getD_eq_getElem _ _ hi']
        exact ihm _ (List.getElem_mem hi')
      have hnext : (nextWord (wordsUpTo key m) key m).length = 4 ∧
          ∀ b ∈ nextWord (wordsUpTo key m) key m, b < 256 := by
        unfold nextWord
        by_cases hm : m < 8
        · rw [if_pos hm]
          constructor
          · rw [List.length_take, List.length_drop, hk]
            omega
          · intro b hbm
            exact hb b (List.drop_subset _ _ (List.take_subset _ _ hbm))
        · rw [if_neg hm]
          have hprev := hgetD (m - 1) (by omega)
          have hprev8 := hgetD (m - 8) (by omega)
          have htemp :
              (∀ b ∈ (if m % 8 = 0 then
                  List.zipWith (fun a b => a ^^^ b)
                    (subWord (rotWord ((wordsUpTo key m).getD (m - 1) [])))
                    [rconV (m / 8), 0, 0, 0]
                else if m % 8 = 4 then subWord ((wordsUpTo key m).getD (m - 1) [])
                else (wordsUpTo key m).getD (m - 1) []), b < 256) := by
            split
            · exact zipWith_xor_lt
                (fun x hx => subWord_spec.2 x hx)
                (by
                  intro b hbm
                  rcases List.mem_cons.mp hbm with rfl | hbm
                  · exact rconV_lt _
                  · simp only [List.mem_cons, List.not_mem_nil, or_false] at hbm
                    rcases hbm with rfl | rfl | rfl <;> norm_num)

            · split
              · exact fun x hx => subWord_spec.2 x hx
              · exact hprev.2
          constructor
          · rw [List.length_zipWith, hprev8.1]
            split
            · rw [List.length_zipWith, subWord_spec.1, rotWord_length, hprev.1]
              simp
            · split
              · rw [subWord_spec.1, hprev.1]
                simp
              · rw [hprev.1]
                simp
          · exact zipWith_xor_lt hprev8.2 htemp
      constructor
      · simp only [wordsUpTo, List.length_append, ihl, List.length_singleton]
      · intro w hw
        simp only [wordsUpTo, List.mem_append, List.mem_singleton] at hw
        rcases hw with hw | rfl
        · exact ihm w hw
        · exact hnext

theorem flatten_length_of_four {l : List Bytes} (h : ∀ w ∈ l, w.length = 4) :
    l.flatten.length = 4 * l.length := by
  induction l with
  | nil => rfl
  | cons w rest ih =>
      simp only [List.flatten_cons, List.length_append, List.length_cons,
        h w (by simp), ih (fun x hx => h x (List.mem_cons_of_mem _ hx))]
      ring

theorem roundKey_spec {key : Bytes} (hk : key.length = 32) (hb : ∀ b ∈ key, b < 256)
    {r : Nat} (hr : r ≤ 14) :
    (roundKey key r).length = 16 ∧ ∀ b ∈ roundKey key r, b < 256 := by
  obtain ⟨hlen, hmem⟩ := wordsUpTo_spec hk hb 60
  have hsub : ∀ w ∈ ((wordsUpTo key 60).drop (4 * r)).take 4, w.length = 4 ∧
      ∀ b ∈ w, b < 256 :=
    fun w hw => hmem w (List.drop_subset _ _ (List.take_subset _ _ hw))
  constructor
  · rw [roundKey, flatten_length_of_four (fun w hw => (hsub w hw).1),
      List.length_take, List.length_drop, hlen]
    omega
  · intro b hbm
    rw [roundKey, List.mem_flatten] at hbm
    obtain ⟨w, hw, hbw⟩ := hbm
    exact (hsub w hw).2 b hbw

theorem aesEncBlock_spec {key : Bytes} (hk : key.length = 32) (hb : ∀ b ∈ key, b < 256)
    (blk : Bytes) :
    (aesEncBlock key blk).length = 16 ∧ ∀ x ∈ aesEncBlock key blk, x < 256 := by
  obtain ⟨hrl, hrb⟩ := roundKey_spec hk hb (show 14 ≤ 14 from le_refl 14)
  constructor
  · simp only [aesEncBlock, addRK, List.length_zipWith, shiftRows_length, hrl]
    simp
  · simp only [aesEncBlock, addRK]
    exact zipWith_xor_lt (shiftRows_lt (subBytes_lt _)) hrb

theorem natToBeBytes_length (n : Nat) : ∀ v, (natToBeBytes n v).length = n := by
  induction n with
  | zero => intro v; rfl
  | succ m ih =>
      intro v
      simp only [natToBeBytes, List.length_append, ih, List.length_singleton]

theorem natToBeBytes_lt (n : Nat) : ∀ v, ∀ b ∈ natToBeBytes n v, b < 256 := by
  induction n with
  | zero => intro v b hbm; simp [natToBeBytes] at hbm
  | succ m ih =>
      intro v b hbm
      simp only [natToBeBytes, List.mem_append, List.mem_singleton] at hbm
      rcases hbm with hbm | rfl
      · exact ih _ b hbm
      · exact Nat.mod_lt _ (by norm_num)

theorem ksByte_lt {key : Bytes} (hk : key.length = 32) (hb : ∀ b ∈ key, b < 256)
    (nonce : Bytes) (i : Nat) : ksByte key nonce i < 256 :=
  getD_lt (aesEncBlock_spec hk hb _).2 _

theorem ctrXor_length (key nonce : Bytes) : ∀ i pt,
    (ctrXor key nonce i pt).length = pt.length := by
  intro i pt
  induction pt generalizing i with
  | nil => rfl
  | cons b rest ih => simp only [ctrXor, List.length_cons, ih]

theorem ctrXor_lt {key : Bytes} (hk : key.length = 32) (hb : ∀ b ∈ key, b < 256)
    (nonce : Bytes) : ∀ i pt, (∀ b ∈ pt, b < 256) → ∀ x ∈ ctrXor key nonce i pt, x < 256 := by
  intro i pt
  induction pt generalizing i with
  | nil => intro _ x hx; simp [ctrXor] at hx
  | cons b rest ih =>
      intro hpt x hx
      simp only [ctrXor, List.mem_cons] at hx
      rcases hx with rfl | hx
      · exact Nat.xor_lt_two_pow (show b < 2 ^ 8 from hpt b (by simp))
          (show ksByte key nonce i < 2 ^ 8 from ksByte_lt hk hb nonce i)
      · exact ih (i + 1) (fun y hy => hpt y (List.mem_cons_of_mem _ hy)) x hx

theorem ctrXor_ctrXor (key nonce : Bytes) : ∀ i pt,
    ctrXor key nonce i (ctrXor key nonce i pt) = pt := by
  intro i pt
  induction pt generalizing i with
  | nil => rfl
  | cons b rest ih =>
      simp only [ctrXor, ih (i + 1), List.cons.injEq, and_true]
      exact Nat.xor_cancel_right _ b

theorem gcmTag_spec {key : Bytes} (hk : key.length = 32) (hb : ∀ b ∈ key, b < 256)
    (nonce ct : Bytes) :
    (gcmTag key nonce ct).length = 16 ∧ ∀ x ∈ gcmTag key nonce ct, x < 256 := by
  constructor
  · rw [gcmTag, List.length_zipWith, (aesEncBlock_spec hk hb _).1, natToBeBytes_length]
    simp
  · exact zipWith_xor_lt (aesEncBlock_spec hk hb _).2 (natToBeBytes_lt 16 _)

theorem gcmOpen_gcmSeal {key : Bytes} (hk : key.length = 32) (hb : ∀ b ∈ key, b < 256)
    (nonce pt : Bytes) : gcmOpen key nonce (gcmSeal key nonce pt) = some pt := by
  have htl := (gcmTag_spec hk hb nonce (ctrXor key nonce 0 pt)).1
  simp only [gcmSeal, gcmOpen, List.length_append, htl]
  rw [if_neg (by omega)]
  have hctl : (ctrXor key nonce 0 pt).length =
      (ctrXor key nonce 0 pt).length + 16 - 16 := by omega
  rw [List.take_left' hctl, List.drop_left' hctl, if_pos rfl, ctrXor_ctrXor]


/- ### Base64 round trip -/

theorem b64val_chr : ∀ v < 64, b64val (b64chr v) = some v := by decide

theorem b64chr_ne_pad : ∀ v < 64, b64chr v ≠ '=' := by decide

theorem b64_roundtrip : ∀ bs : Bytes, (∀ b ∈ bs, b < 256) →
    b64decodeChars (b64encodeBytes bs) = some bs := by
  intro bs
  induction bs using b64encodeBytes.induct with
  | case1 a b c rest ih =>
      intro h
      have ha : a < 256 := h a (by simp)
      have hb : b < 256 := h b (by simp)
      have hc : c < 256 := h c (by simp)
      simp only [b64encodeBytes, b64decodeChars]
      rw [b64val_chr (a / 4) (by omega), b64val_chr (a % 4 * 16 + b / 16) (by omega),
        b64val_chr (b % 16 * 4 + c / 64) (by omega), b64val_chr (c % 64) (by omega)]
      simp only []
      rw [if_neg (b64chr_ne_pad (b % 16 * 4 + c / 64) (by omega)),
        if_neg (b64chr_ne_pad (c % 64) (by omega))]
      rw [ih (fun x hx => h x (by simp [hx]))]
      simp only [Option.map_some', Option.some.injEq, List.cons.injEq,
        eq_self_iff_true, and_true]
      omega
  | case2 a b =>
      intro h
      have ha : a < 256 := h a (by simp)
      have hb : b < 256 := h b (by simp)
      simp only [b64encodeBytes, b64decodeChars]
      rw [b64val_chr (a / 4) (by omega), b64val_chr (a % 4 * 16 + b / 16) (by omega),
        b64val_chr (b % 16 * 4) (by omega)]
      simp only []
      rw [if_neg (b64chr_ne_pad (b % 16 * 4) (by omega))]
      simp only [if_true, List.isEmpty_nil, Option.some.injEq, List.cons.injEq,
        eq_self_iff_true, and_true]
      omega
  | case3 a =>
      intro h
      have ha : a < 256 := h a (by simp)
      simp only [b64encodeBytes, b64decodeChars]
      rw [b64val_chr (a / 4) (by omega), b64val_chr (a % 4 * 16) (by omega)]
      simp only [if_true, List.isEmpty_nil, decide_true_eq_true, Bool.and_self,
        Option.some.injEq, List.cons.injEq, eq_self_iff_true, and_true]
      omega
  | case4 =>
      intro _
      rfl


/- ### Big-endian byte strings -/

theorem beBytesToNat_append_one (xs : Bytes) (b : Nat) :
    beBytesToNat (xs ++ [b]) = beBytesToNat xs * 256 + b := by
  simp [beBytesToNat, List.foldl_append]

theorem natToBeBytes_beBytesToNat :
    ∀ bs : Bytes, (∀ b ∈ bs, b < 256) → natToBeBytes bs.length (beBytesToNat bs) = bs := by
  intro bs
  induction bs using List.reverseRecOn with
  | nil => intro _; rfl
  | append_singleton xs b ih =>
      intro h
      have hb : b < 256 := h b (by simp)
      rw [beBytesToNat_append_one, List.length_append, List.length_singleton]
      simp only [natToBeBytes]
      rw [show (beBytesToNat xs * 256 + b) / 256 = beBytesToNat xs by omega,
        show (beBytesToNat xs * 256 + b) % 256 = b by omega,
        ih (fun x hx => h x (List.mem_append_left _ hx))]

theorem beBytesToNat_lt :
    ∀ bs : Bytes, (∀ b ∈ bs, b < 256) → beBytesToNat bs < 256 ^ bs.length := by
  intro bs
  induction bs using List.reverseRecOn with
  | nil => intro _; simp [beBytesToNat]
  | append_singleton xs b ih =>
      intro h
      have hb : b < 256 := h b (by simp)
      have hx := ih (fun x hx => h x (List.mem_append_left _ hx))
      rw [beBytesToNat_append_one, List.length_append, List.length_singleton, pow_succ]
      have h1 : beBytesToNat xs + 1 ≤ 256 ^ xs.length := hx
      calc beBytesToNat xs * 256 + b < (beBytesToNat xs + 1) * 256 := by omega
        _ ≤ 256 ^ xs.length * 256 := Nat.mul_le_mul_right 256 h1

theorem beBytesToNat_natToBeBytes :
    ∀ (n : Nat) (v : Nat), beBytesToNat (natToBeBytes n v) = v % 256 ^ n := by
  intro n
  induction n with
  | zero => intro v; simp [natToBeBytes, beBytesToNat, Nat.mod_one]
  | succ m ih =>
      intro v
      simp only [natToBeBytes, beBytesToNat_append_one, ih]
      rw [show (256 : Nat) ^ (m + 1) = 256 * 256 ^ m from by rw [pow_succ]; ring]
      rw [Nat.mod_mul]
      omega

theorem beBytes_inj {t1 t2 : Bytes} (hl : t1.length = t2.length)
    (h1 : ∀ b ∈ t1, b < 256) (h2 : ∀ b ∈ t2, b < 256)
    (he : beBytesToNat t1 = beBytesToNat t2) : t1 = t2 := by
  have e1 := natToBeBytes_beBytesToNat t1 h1
  have e2 := natToBeBytes_beBytesToNat t2 h2
  rw [← e1, ← e2, hl, he]

/- ### Decrypt after Encrypt -/

theorem serviceKey_spec {masterKey : Bytes} (hkl : 32 ≤ masterKey.length)
    (hkb : ∀ b ∈ masterKey, b < 256) :
    (serviceKey masterKey).length = 32 ∧ ∀ b ∈ serviceKey masterKey, b < 256 := by
  constructor
  · rw [serviceKey, List.length_take]
    omega
  · exact fun b hb => hkb b (List.take_subset _ _ hb)

theorem decrypt_encrypt {masterKey nonce pt : Bytes}
    (hkl : 32 ≤ masterKey.length) (hkb : ∀ b ∈ masterKey, b < 256)
    (hnl : nonce.length = 12) (hnb : ∀ b ∈ nonce, b < 256)
    (hpb : ∀ b ∈ pt, b < 256) :
    Decrypt masterKey (Encrypt masterKey nonce pt) = Except.ok pt := by
  obtain ⟨hsl, hsb⟩ := serviceKey_spec hkl hkb
  have hct := ctrXor_lt hsl hsb nonce 0 pt hpb
  have htag := (gcmTag_spec hsl hsb nonce (ctrXor (serviceKey masterKey) nonce 0 pt)).2
  have hall : ∀ b ∈ nonce ++ gcmSeal (serviceKey masterKey) nonce pt, b < 256 := by
    intro b hbm
    rcases List.mem_append.mp hbm with hbm | hbm
    · exact hnb b hbm
    · simp only [gcmSeal] at hbm
      rcases List.mem_append.mp hbm with hbm | hbm
      · exact hct b hbm
      · exact htag b hbm
  rw [Encrypt, Decrypt, b64_roundtrip _ hall]
  simp only []
  have hlen : (nonce ++ gcmSeal (serviceKey masterKey) nonce pt).length =
      12 + (gcmSeal (serviceKey masterKey) nonce pt).length := by
    rw [List.length_append, hnl]
  rw [if_neg (by omega)]
  rw [List.take_left' hnl, List.drop_left' hnl]
  rw [gcmOpen_gcmSeal hsl hsb]

/- ### A wrong-key decryption that succeeds -/

theorem exists_tag_collision :
    ∃ k1 k2 : Bytes, k1.length = 32 ∧ k2.length = 32 ∧ (∀ b ∈ k1, b < 256) ∧
      (∀ b ∈ k2, b < 256) ∧ k1 ≠ k2 ∧
      gcmTag k1 (List.replicate 12 0) [] = gcmTag k2 (List.replicate 12 0) [] := by
  have hpow : (256 : Nat) ^ 32 = 2 ^ 256 := by norm_num
  have htag16 : ∀ v : Nat, (gcmTag (natToBeBytes 32 v) (List.replicate 12 0) []).length = 16 ∧
      ∀ x ∈ gcmTag (natToBeBytes 32 v) (List.replicate 12 0) [], x < 256 :=
    fun v => gcmTag_spec (natToBeBytes_length 32 v) (natToBeBytes_lt 32 v) _ _
  have hbound : ∀ v : Nat,
      beBytesToNat (gcmTag (natToBeBytes 32 v) (List.replicate 12 0) []) < 2 ^ 128 := by
    intro v
    have := beBytesToNat_lt _ (htag16 v).2
    rw [(htag16 v).1] at this
    calc beBytesToNat (gcmTag (natToBeBytes 32 v) (List.replicate 12 0) []) < 256 ^ 16 := this
      _ = 2 ^ 128 := by norm_num
  obtain ⟨x, y, hxy, hmap⟩ := Fintype.exists_ne_map_eq_of_card_lt
    (fun v : Fin (2 ^ 256) =>
      (⟨beBytesToNat (gcmTag (natToBeBytes 32 v.val) (List.replicate 12 0) []),
        hbound v.val⟩ : Fin (2 ^ 128)))
    (by
      rw [Fintype.card_fin, Fintype.card_fin]
      exact Nat.pow_lt_pow_right (by norm_num) (by norm_num))
  refine ⟨natToBeBytes 32 x.val, natToBeBytes 32 y.val, natToBeBytes_length 32 _,
    natToBeBytes_length 32 _, natToBeBytes_lt 32 _, natToBeBytes_lt 32 _, ?_, ?_⟩
  · intro he
    apply hxy
    have hx := beBytesToNat_natToBeBytes 32 x.val
    have hy := beBytesToNat_natToBeBytes 32 y.val
    rw [he] at hx
    rw [hy] at hx
    have hx' : x.val % 256 ^ 32 = x.val := Nat.mod_eq_of_lt (by rw [hpow]; exact x.isLt)
    have hy' : y.val % 256 ^ 32 = y.val := Nat.mod_eq_of_lt (by rw [hpow]; exact y.isLt)
    exact Fin.ext (by rw [← hx', ← hy', hx])
  · simp only [Fin.mk.injEq] at hmap
    exact beBytes_inj (by rw [(htag16 x.val).1, (htag16 y.val).1])
      (htag16 x.val).2 (htag16 y.val).2 hmap

/-- Counterexample for C9: two distinct 32-byte keys exist for which a
ciphertext produced under the first decrypts successfully under the
second, refuting the claim that decryption under any different key
fails. -/
theorem claim_C9_counterexample :
    ∃ k1 k2 : Bytes, k1.length = 32 ∧ k2.length = 32 ∧ k1 ≠ k2 ∧
      Decrypt k2 (Encrypt k1 (List.replicate 12 0) []) = Except.ok [] := by
  obtain ⟨k1, k2, hl1, hl2, hb1, hb2, hne, htag⟩ := exists_tag_collision
  refine ⟨k1, k2, hl1, hl2, hne, ?_⟩
  have hsk1 : serviceKey k1 = k1 := List.take_of_length_le (by rw [hl1])
  have hsk2 : serviceKey k2 = k2 := List.take_of_length_le (by rw [hl2])
  have htag1 := gcmTag_spec hl1 hb1 (List.replicate 12 0) ([] : Bytes)
  have hseal : gcmSeal k1 (List.replicate 12 0) [] = gcmTag k1 (List.replicate 12 0) [] := by
    simp only [gcmSeal]
    rw [show ctrXor k1 (List.replicate 12 0) 0 [] = ([] : Bytes) from rfl, List.nil_append]
  have hall : ∀ b ∈ List.replicate 12 0 ++ gcmSeal k1 (List.replicate 12 0) [], b < 256 := by
    intro b hbm
    rcases List.mem_append.mp hbm with hbm | hbm
    · rw [List.eq_of_mem_replicate hbm]; norm_num
    · rw [hseal] at hbm
      exact htag1.2 b hbm
  rw [Encrypt, hsk1, Decrypt, b64_roundtrip _ hall]
  simp only []
  rw [if_neg (by
    rw [List.length_append, List.length_replicate]
    omega)]
  have hrl : (List.replicate 12 (0 : Nat)).length = 12 := List.length_replicate 12 0
  rw [List.take_left' hrl, List.drop_left' hrl, hsk2, hseal, gcmOpen]
  rw [if_neg (by rw [htag1.1]; omega)]
  simp only []
  have h0 : (gcmTag k1 (List.replicate 12 0) []).length - 16 = 0 := by rw [htag1.1]
  rw [h0, List.take_zero, List.drop_zero]
  rw [if_pos htag.symm]
  rfl

/-- Claim C9 (amended): for every master key of length at least 32
(byte-valued entries) and every plaintext, decrypting the encryption
produced with a fresh 12-byte nonce under the same key returns exactly
the plaintext; the converse direction of the original claim — that
decryption under any other key must fail — is refuted separately by a
tag collision between two distinct keys. -/
theorem claim_C9_roundtrip (masterKey nonce pt : Bytes) (hkl : 32 ≤ masterKey.length)
    (hkb : ∀ b ∈ masterKey, b < 256) (hnl : nonce.length = 12)
    (hnb : ∀ b ∈ nonce, b < 256) (hpb : ∀ b ∈ pt, b < 256) :
    Decrypt masterKey (Encrypt masterKey nonce pt) = Except.ok pt :=
  decrypt_encrypt hkl hkb hnl hnb hpb

/-- Witness for C9: a concrete 32-byte key, 12-byte nonce and two-byte
plaintext round-trip. -/
theorem claim_C9_witness :
    Decrypt (List.replicate 32 65)
        (Encrypt (List.replicate 32 65) (List.replicate 12 0) [104, 105]) =
      Except.ok [104, 105] :=
  claim_C9_roundtrip (List.replicate 32 65) (List.replicate 12 0) [104, 105]
    (by decide) (by decide) (by decide) (by decide) (by decide)

/- ### Concrete executions that bypass the allow-list and the query
activity flag -/

/-- A driver oracle that accepts and returns a single-column row. -/
def okDriver : DriverDB :=
  ⟨none, none, fun _ _ => Except.ok ([String.toList "n"], [[GoValue.num 1]])⟩

/-- A 32-byte master key. -/
def mkA : Bytes := List.replicate 32 65

/-- A 12-byte nonce. -/
def nonceZ : Bytes := List.replicate 12 0

/-- A connection-string plaintext. -/
def csA : Bytes := [104, 105]

/-- An active connection with id 2. -/
def connA : DBConnection :=
  ⟨2, String.toList "c2", "sqlite", Encrypt mkA nonceZ csA, true⟩

/-- An active saved query whose allow-list contains only connection 1. -/
def qAllow : SavedQuery :=
  ⟨7, String.toList "q", String.toList "SELECT 1", true, [1]⟩

/-- Catalog holding `connA` and `qAllow`. -/
def wAllow : World :=
  ⟨[connA], [qAllow], mkA, fun _ _ => okDriver, none, 0, 5⟩

/-- An inactive saved query that allows connection 2. -/
def qInactive : SavedQuery :=
  ⟨8, String.toList "qi", String.toList "SELECT 1", false, [2]⟩

/-- Catalog holding `connA` and `qInactive`. -/
def wInactive : World :=
  ⟨[connA], [qInactive], mkA, fun _ _ => okDriver, none, 0, 5⟩

theorem executeSQL_connA_ok (w : World) (hw : w.connections = [connA])
    (hmk : w.masterKey = mkA) (hdb : w.db = fun _ _ => okDriver) (qid : Int) :
    ExecuteSQL w 2 (String.toList "SELECT 1") [] qid =
      some (Except.ok ⟨[String.toList "n"], [[(String.toList "n", GoValue.num 1)]]⟩,
        [auditRow w 2 qid []
          (Except.ok ⟨[String.toList "n"], [[(String.toList "n", GoValue.num 1)]]⟩)]) := by
  simp only [ExecuteSQL, hw, hmk, hdb]
  rw [show List.find? (fun c => c.ID == (2 : Int)) [connA] = some connA from rfl]
  simp only []
  rw [show (!connA.IsActive) = false from rfl]
  simp only [Bool.false_eq_true, if_false]
  rw [show connA.ConnectionStringEnc = Encrypt mkA nonceZ csA from rfl]
  rw [show Decrypt mkA (Encrypt mkA nonceZ csA) = Except.ok csA from
    decrypt_encrypt (by decide) (by decide) (by decide) (by decide) (by decide)]
  simp only []
  rw [Parse_evalB]
  rfl

/-- Claim C1: the saved query's allow-list admits only connection 1,
yet executing it against connection 2 — absent from the allow-list —
reaches the driver and succeeds: no allow-list check exists on the
execution path. -/
theorem claim_C1_allowlist_bypass :
    (2 : Int) ∉ qAllow.AllowedConnectionIDs ∧ wAllow.queries = [qAllow] ∧
    ∃ res logs, Execute wAllow 2 (String.toList "q") [] = some (Except.ok res, logs) := by
  refine ⟨by decide, rfl, ?_⟩
  rw [show Execute wAllow 2 (String.toList "q") [] =
    ExecuteSQL wAllow 2 (String.toList "SELECT 1") [] 7 from rfl]
  rw [executeSQL_connA_ok wAllow rfl rfl rfl 7]
  exact ⟨_, _, rfl⟩

/-- Claim C3: the saved query is inactive, yet executing it reaches
the driver and succeeds: the query-side `is_active` check is absent
from the execution path (only the connection's flag is checked). -/
theorem claim_C3_inactive_query_runs :
    qInactive.IsActive = false ∧ wInactive.queries = [qInactive] ∧
    ∃ res logs, Execute wInactive 2 (String.toList "qi") [] = some (Except.ok res, logs) := by
  refine ⟨rfl, rfl, ?_⟩
  rw [show Execute wInactive 2 (String.toList "qi") [] =
    ExecuteSQL wInactive 2 (String.toList "SELECT 1") [] 8 from rfl]
  rw [executeSQL_connA_ok wInactive rfl rfl rfl 8]
  exact ⟨_, _, rfl⟩

end DbBridge
